import Mathlib

/-!
Shallow embedding of `scripts/gen_workload.py`, the workload generator of the
link-shortener benchmark repository, together with proofs about the claims of
its specification.

Python's global Mersenne-Twister generator (`random.seed`, `random.choice`,
`random.randint`, `random.shuffle`) is modelled by a deterministic 64-bit
linear-congruential generator threaded through a state monad with the same
interface and the same failure behavior (`random.choice` on an empty sequence
raises IndexError).  None of the properties below depends on the concrete
stream of pseudo-random values, only on the interface: `choice` returns an
element of its argument (failing on the empty list), `randint a b` returns a
value in `[a, b]`, `shuffle` returns a permutation of its argument, and the
whole pipeline is a deterministic function of the seed.

Python's `int(x)` applied to the float expressions `n_ops * read_pct / 100`
and `n_reads * 0.8` is modelled by exact integer division truncating toward
zero (`Int.tdiv`), the exact value of those expressions for all realistic
magnitudes.
-/

/-- A 64-bit linear congruential step standing in for the Mersenne Twister. -/
def lcgNext (s : Nat) : Nat :=
  (s * 6364136223846793005 + 1442695040888963407) % (2 ^ 64)

/-- Model of `random.seed(seed)`: the generator state determined by the seed. -/
def seedState (seed : Nat) : Nat :=
  seed % (2 ^ 64)

/-- The pseudo-random state monad: a deterministic state transformer that can
fail (modelling an uncaught Python exception). -/
def RandM (α : Type) : Type :=
  Nat → Except String (α × Nat)

/-- Monadic return for `RandM`. -/
def RandM.pure {α : Type} (a : α) : RandM α :=
  fun s => .ok (a, s)

/-- Monadic bind for `RandM`; an error short-circuits, like an exception. -/
def RandM.bind {α β : Type} (m : RandM α) (f : α → RandM β) : RandM β :=
  fun s =>
    match m s with
    | .error e => .error e
    | .ok (a, s') => f a s'

/-- Model of `random.randint(a, b)`: a pseudo-random integer in `[a, b]`. -/
def randint (a b : Nat) : RandM Nat :=
  fun s =>
    let s' := lcgNext s
    .ok (a + s' % (b - a + 1), s')

/-- Model of `random.choice(xs)`: a pseudo-random element of `xs`; raises IndexError on
an empty sequence. -/
def choice {α : Type} (xs : List α) : RandM α :=
  fun s =>
    match xs with
    | [] => .error "IndexError"
    | x :: rest =>
      let s' := lcgNext s
      .ok ((x :: rest).getD (s' % (x :: rest).length) x, s')

/-- Python's `string.ascii_letters`: lowercase then uppercase, as in Python. -/
def ascii_letters : List Char :=
  "abcdefghijklmnopqrstuvwxyzABCDEFGHIJKLMNOPQRSTUVWXYZ".data

/-- Python's `string.digits`. -/
def ascii_digits : List Char :=
  "0123456789".data

/-- Python's `string.punctuation` (32 characters, in the same order). -/
def punctuation_chars : List Char :=
  "!\"#$%&".data ++ [Char.ofNat 39] ++ "()*+,-./:;<=>?@[\\]^_`".data
    ++ [Char.ofNat 123, '|', Char.ofNat 125, '~']

/-- The alphabet `BASE62 = string.ascii_letters + string.digits`. -/
def BASE62 : List Char :=
  ascii_letters ++ ascii_digits

/-- The alphabet `string.ascii_letters + string.digits + string.punctuation`, the
alphabet used by `generate_url`. -/
def URL_CHARS : List Char :=
  ascii_letters ++ ascii_digits ++ punctuation_chars

/-- The base-62 digits of `n`, least significant first (`BASE62[n % 62]`
followed by the digits of `n // 62`), with explicit fuel so that the kernel can
evaluate it; `base62_digits` supplies sufficient fuel. -/
def b62digitsGo : Nat → Nat → List Char
  | _, 0 => []
  | 0, _ + 1 => []
  | fuel + 1, n + 1 =>
    BASE62.getD ((n + 1) % 62) 'a' :: b62digitsGo fuel ((n + 1) / 62)

/-- The loop `while n > 0: result.append(BASE62[n % 62]); n //= 62` of
`base62_encode`: the base-62 digits of `n`, least significant first. -/
def base62_digits (n : Nat) : List Char :=
  b62digitsGo n n

/-- Model of `base62_encode(n, length)` from `gen_workload.py`: digits of `n` least
significant first, padded at the end with the character `'0'` to `length`,
reversed, and truncated to the first `length` characters; `n = 0` yields
`'0' * length`. -/
def base62_encode (n : Nat) (length : Nat) : String :=
  if n = 0 then String.mk (List.replicate length '0')
  else
    let result := base62_digits n
    let padded := result ++ List.replicate (length - result.length) '0'
    String.mk (padded.reverse.take length)

/-- The loop drawing `len` pseudo-random characters from `URL_CHARS` inside
`generate_url`. -/
def drawChars : Nat → RandM (List Char)
  | 0 => RandM.pure []
  | n + 1 =>
    RandM.bind (choice URL_CHARS) fun c =>
    RandM.bind (drawChars n) fun rest =>
    RandM.pure (c :: rest)

/-- Model of `generate_url(min_len=30, max_len=120)`: a pseudo-random ASCII string of
length uniform in `[30, 120]` over letters, digits and punctuation. -/
def generate_url : RandM String :=
  RandM.bind (randint 30 120) fun len =>
  RandM.bind (drawChars len) fun cs =>
  RandM.pure (String.mk cs)

/-- An operation: `('G', code, None)` or `('S', code, url)` in the Python
source. -/
inductive Op where
  | read (code : String)
  | write (code : String) (url : String)
deriving DecidableEq

/-- Whether an operation is a read (`'G'`). -/
def Op.isRead : Op → Bool
  | .read _ => true
  | .write _ _ => false

/-- Whether an operation is a write (`'S'`). -/
def Op.isWrite : Op → Bool
  | .read _ => false
  | .write _ _ => true

/-- The code carried by an operation. -/
def Op.code : Op → String
  | .read c => c
  | .write c _ => c

/-- The codes of the write operations of a sequence, in order. -/
def writeCodes (ops : List Op) : List String :=
  ops.filterMap fun op =>
    match op with
    | .write c _ => some c
    | .read _ => none

/-- The read-generation loop: `n` times, `random.choice(codes)` appended as a
`('G', code, None)` operation. -/
def drawReads (codes : List String) : Nat → RandM (List Op)
  | 0 => RandM.pure []
  | n + 1 =>
    RandM.bind (choice codes) fun c =>
    RandM.bind (drawReads codes n) fun rest =>
    RandM.pure (.read c :: rest)

/-- The write-generation loop: for `i` in `range(n)`, a write with code
`base62_encode(max_code + i)` and a fresh pseudo-random URL. -/
def drawWrites (max_code : Nat) : Nat → RandM (List Op)
  | 0 => RandM.pure []
  | n + 1 =>
    RandM.bind generate_url fun url =>
    RandM.bind (drawWrites (max_code + 1) n) fun rest =>
    RandM.pure (.write (base62_encode max_code 8) url :: rest)

/-- The count `n_reads = int(n_ops * read_pct / 100)`: exact truncation toward zero of
the Python float expression. -/
def n_reads_of (n_ops : Nat) (read_pct : Int) : Int :=
  Int.tdiv ((n_ops : Int) * read_pct) 100

/-- The count `n_writes = n_ops - n_reads` (a Python int, possibly negative). -/
def n_writes_of (n_ops : Nat) (read_pct : Int) : Int :=
  (n_ops : Int) - n_reads_of n_ops read_pct

/-- The count `hot_reads = int(n_reads * 0.8)`: exact truncation toward zero of the
float product, i.e. `(n_reads * 4) tdiv 5`. -/
def hot_reads_of (n_reads : Int) : Int :=
  Int.tdiv (n_reads * 4) 5

/-- One step of the shuffle: extract the element at a pseudo-random index and
recurse on the remainder; with fuel at least the length this produces a seeded
pseudo-random permutation, modelling `random.shuffle`. -/
def shuffleGo {α : Type} : Nat → List α → Nat → List α × Nat
  | 0, xs, s => (xs, s)
  | _ + 1, [], s => ([], s)
  | fuel + 1, x :: xs, s =>
    let l := x :: xs
    let s' := lcgNext s
    let i := s' % l.length
    let picked := l.getD i x
    let rest := l.eraseIdx i
    let (tail, s'') := shuffleGo fuel rest s'
    (picked :: tail, s'')

/-- Model of `random.shuffle(ops)`: a seeded pseudo-random permutation of `ops`. -/
def shuffle {α : Type} (xs : List α) : RandM (List α) :=
  fun s =>
    let (out, s') := shuffleGo xs.length xs s
    .ok (out, s')

/-- Model of `generate_ops_uniform(n_ops, initial_codes, read_pct, seed)`: seed the
generator, draw `n_reads` uniform reads from `initial_codes`, mint `n_writes`
writes continuing the counter at `len(initial_codes)`, and shuffle. -/
def generate_ops_uniform (n_ops : Nat) (initial_codes : List String)
    (read_pct : Int) (seed : Nat) : Except String (List Op) :=
  let m :=
    RandM.bind (drawReads initial_codes (n_reads_of n_ops read_pct).toNat) fun reads =>
    RandM.bind (drawWrites initial_codes.length (n_writes_of n_ops read_pct).toNat) fun writes =>
    shuffle (reads ++ writes)
  (m (seedState seed)).map Prod.fst

/-- The size `hot_size = max(1, len(initial_codes) // 5)`. -/
def hot_size_of (initial_codes : List String) : Nat :=
  max 1 (initial_codes.length / 5)

/-- Model of `generate_ops_hot(n_ops, initial_codes, read_pct, seed)`: hot prefix of
size `max(1, len // 5)`, `int(n_reads * 0.8)` reads from it, the remaining
reads from the cold remainder (falling back to the full key set when the cold
remainder is empty), writes as in uniform mode, then shuffle. -/
def generate_ops_hot (n_ops : Nat) (initial_codes : List String)
    (read_pct : Int) (seed : Nat) : Except String (List Op) :=
  let n_reads := n_reads_of n_ops read_pct
  let hot_codes := initial_codes.take (hot_size_of initial_codes)
  let cold_codes := initial_codes.drop (hot_size_of initial_codes)
  let hot_reads := hot_reads_of n_reads
  let cold_reads := n_reads - hot_reads
  let m :=
    RandM.bind (drawReads hot_codes hot_reads.toNat) fun hreads =>
    RandM.bind
      (drawReads (if cold_codes.isEmpty then initial_codes else cold_codes)
        cold_reads.toNat) fun creads =>
    RandM.bind (drawWrites initial_codes.length (n_writes_of n_ops read_pct).toNat) fun writes =>
    shuffle (hreads ++ creads ++ writes)
  (m (seedState seed)).map Prod.fst

/-- One iteration of the `while len(entries) < n` loop of
`generate_initial_dataset`: exit when `n` entries are collected, otherwise
encode the counter, skip the code if already seen, or draw a URL and append
the entry; the counter advances every iteration.  `recur` continues the
loop. -/
def genInitialStep (n : Nat)
    (recur : List (String × String) → List String → Nat → Nat →
      Option (List (String × String) × Nat))
    (entries : List (String × String)) (seen : List String)
    (counter s : Nat) : Option (List (String × String) × Nat) :=
  if n ≤ entries.length then some (entries, s)
  else
    let code := base62_encode counter 8
    if seen.contains code then
      recur entries seen (counter + 1) s
    else
      match generate_url s with
      | .error _ => none
      | .ok (url, s') =>
        recur (entries ++ [(code, url)]) (seen ++ [code]) (counter + 1) s'

/-- The `while len(entries) < n` loop of `generate_initial_dataset`, with
explicit fuel bounding the number of iterations (written with `Nat.rec` so
that one loop step unfolds definitionally); exhausted fuel yields `none`. -/
def genInitialLoop (n : Nat) (fuel : Nat) :
    List (String × String) → List String → Nat → Nat →
      Option (List (String × String) × Nat) :=
  Nat.rec
    (fun entries _seen _counter s =>
      if n ≤ entries.length then some (entries, s) else none)
    (fun _fuel recur => genInitialStep n recur)
    fuel

/-- Model of `generate_initial_dataset(n, seed)`: seed the generator and run the
counter loop.  `62 ^ 8` iterations of fuel are enough for every `n` up to
`61 * 62 ^ 7`, the number of distinct codes `base62_encode` can produce; the
Python loop diverges beyond that, which the fuelled model reports as `none`
(no fuel value makes it succeed there). -/
def generate_initial_dataset (n : Nat) (seed : Nat) :
    Option (List (String × String)) :=
  (genInitialLoop n (62 ^ 8) [] [] 0 (seedState seed)).map Prod.fst

/-- Distribution mode selected by `--dist`. -/
inductive DistMode where
  | uniform
  | hot
deriving DecidableEq

/-- The dispatch in `main`: uniform or hot operation generation. -/
def gen_ops : DistMode → Nat → List String → Int → Nat → Except String (List Op)
  | .uniform => generate_ops_uniform
  | .hot => generate_ops_hot

/-- The seed `main` passes to the operation-generation phase:
`args.seed + 1`. -/
def phase2_seed (seed : Nat) : Nat :=
  seed + 1

/-- The URL carried by an operation (empty for reads, which carry none). -/
def Op.url : Op → String
  | .read _ => ""
  | .write _ u => u

/-- One positional step of the base-62 value of a digit string. -/
def b62step (acc : Nat) (c : Char) : Nat :=
  acc * 62 + BASE62.indexOf c

/-- The base-62 value of a most-significant-first digit string. -/
def b62val (l : List Char) : Nat :=
  l.foldl b62step 0

/-- The `k`-digit base-62 rendering of `v`, most significant first: the
left inverse of `b62val` on `k`-character strings over `BASE62`. -/
def decodeB62 : Nat → Nat → List Char
  | 0, _ => []
  | k + 1, v => decodeB62 k (v / 62) ++ [BASE62.getD (v % 62) 'a']

/-- Shape of every string `base62_encode` can return: 8 characters, all from
the 62-symbol alphabet, and the first one is never `'a'` (the alphabet's zero
digit), because padding and truncation both put a non-`'a'` character first. -/
def goodCode (s : String) : Prop :=
  s.data.length = 8 ∧ (∀ c ∈ s.data, c ∈ BASE62) ∧ s.data.head? ≠ some 'a'

/-- The `initial.tsv` line for one entry: `<code>\t<url>\n`. -/
def renderEntryLine (e : String × String) : List Char :=
  e.1.data ++ '\t' :: (e.2.data ++ ['\n'])

/-- The full `initial.tsv` text, in generation order. -/
def renderInitial : List (String × String) → List Char
  | [] => []
  | e :: es => renderEntryLine e ++ renderInitial es

/-- The `ops.txt` line for one operation: `G <code>\n` or `S <code> <url>\n`. -/
def renderOpLine : Op → List Char
  | .read c => 'G' :: ' ' :: (c.data ++ ['\n'])
  | .write c u => 'S' :: ' ' :: (c.data ++ ' ' :: (u.data ++ ['\n']))

/-- The full `ops.txt` text, in generation order. -/
def renderOps : List Op → List Char
  | [] => []
  | op :: ops => renderOpLine op ++ renderOps ops

/-- Split a character list at every occurrence of `sep` (the pieces do not
contain `sep`; always returns at least one piece). -/
def splitOnChar (sep : Char) : List Char → List (List Char)
  | [] => [[]]
  | c :: rest =>
    if c = sep then [] :: splitOnChar sep rest
    else
      match splitOnChar sep rest with
      | [] => [[c]]
      | h :: t => (c :: h) :: t

/-- Modelled from the spec: the external harness's parser for one
`initial.tsv` line, tab-separated `<code>\t<url>`. -/
def parseEntryLine (l : List Char) : Option (String × String) :=
  match splitOnChar '\t' l with
  | [c, u] => some (String.mk c, String.mk u)
  | _ => none

/-- Modelled from the spec: the external harness's parser for one `ops.txt`
line, space-separated `G <code>` or `S <code> <url>`. -/
def parseOpLine (l : List Char) : Option Op :=
  match splitOnChar ' ' l with
  | [t, c] => if t = ['G'] then some (.read (String.mk c)) else none
  | [t, c, u] => if t = ['S'] then some (.write (String.mk c) (String.mk u)) else none
  | _ => none

/-- Modelled from the spec: split a file into newline-terminated lines and
parse each with `parseLine`; trailing characters after the last newline make
the file malformed.  `acc` holds the current line, reversed. -/
def parseLinesGo {α : Type} (parseLine : List Char → Option α) :
    List Char → List Char → Option (List α)
  | [], acc => if acc.isEmpty then some [] else none
  | ch :: rest, acc =>
    if ch = '\n' then
      match parseLine acc.reverse, parseLinesGo parseLine rest [] with
      | some x, some xs => some (x :: xs)
      | _, _ => none
    else parseLinesGo parseLine rest (ch :: acc)

/-- Modelled from the spec: parse the whole `initial.tsv` text. -/
def parseInitial (file : List Char) : Option (List (String × String)) :=
  parseLinesGo parseEntryLine file []

/-- Modelled from the spec: parse the whole `ops.txt` text. -/
def parseOps (file : List Char) : Option (List Op) :=
  parseLinesGo parseOpLine file []

/-- Modelled from the spec: Python's `round()` (round half to even), applied
to the exact rational `a / b`, as used by the spec's operation-count formula
`round(n_ops * read_pct / 100)`. -/
def pyRound (a b : Nat) : Nat :=
  let q := a / b
  let r := a % b
  if 2 * r < b then q
  else if b < 2 * r then q + 1
  else if q % 2 = 0 then q else q + 1

theorem RandM.bind_ok {α β : Type} {m : RandM α} {f : α → RandM β} {s s' : Nat}
    {a : α} (h : m s = .ok (a, s')) : RandM.bind m f s = f a s' := by
  simp [RandM.bind, h]

theorem RandM.bind_err {α β : Type} {m : RandM α} {f : α → RandM β} {s : Nat}
    {e : String} (h : m s = .error e) : RandM.bind m f s = .error e := by
  simp [RandM.bind, h]

theorem choice_ok {α : Type} (xs : List α) (h : xs ≠ []) (s : Nat) :
    ∃ a s', choice xs s = .ok (a, s') ∧ a ∈ xs := by
  match xs with
  | [] => exact absurd rfl h
  | x :: rest =>
    refine ⟨(x :: rest).getD (lcgNext s % (x :: rest).length) x, lcgNext s, rfl, ?_⟩
    have hlt : lcgNext s % (x :: rest).length < (x :: rest).length :=
      Nat.mod_lt _ (by simp)
    rw [List.getD_eq_get _ _ hlt]
    exact List.get_mem _ _ _

theorem choice_nil_err {α : Type} (s : Nat) :
    choice (α := α) [] s = .error "IndexError" := rfl

theorem drawChars_ok (n : Nat) (s : Nat) :
    ∃ cs s', drawChars n s = .ok (cs, s') ∧ cs.length = n ∧
      ∀ c ∈ cs, c ∈ URL_CHARS := by
  induction n generalizing s with
  | zero => exact ⟨[], s, rfl, rfl, by simp⟩
  | succ n ih =>
    obtain ⟨c, s1, hc, hmem⟩ := choice_ok URL_CHARS (by decide) s
    obtain ⟨cs, s2, hcs, hlen, hall⟩ := ih s1
    refine ⟨c :: cs, s2, ?_, by simp [hlen], ?_⟩
    · show RandM.bind (choice URL_CHARS) _ s = _
      rw [RandM.bind_ok hc, RandM.bind_ok hcs]
      rfl
    · intro x hx
      rcases List.mem_cons.mp hx with h | h
      · exact h ▸ hmem
      · exact hall x h

theorem randint_ok (a b s : Nat) :
    randint a b s = .ok (a + lcgNext s % (b - a + 1), lcgNext s) := rfl

theorem generate_url_ok (s : Nat) :
    ∃ u s', generate_url s = .ok (u, s') ∧ ∀ c ∈ u.data, c ∈ URL_CHARS := by
  obtain ⟨cs, s2, hcs, _, hall⟩ := drawChars_ok (30 + lcgNext s % 91) (lcgNext s)
  refine ⟨String.mk cs, s2, ?_, hall⟩
  show RandM.bind (randint 30 120) _ s = _
  rw [RandM.bind_ok (randint_ok 30 120 s), RandM.bind_ok hcs]
  rfl

theorem drawReads_ok (codes : List String) (h : codes ≠ []) (n : Nat) (s : Nat) :
    ∃ (cs : List String) (s' : Nat), drawReads codes n s = .ok (cs.map Op.read, s') ∧
      cs.length = n ∧ ∀ c ∈ cs, c ∈ codes := by
  induction n generalizing s with
  | zero => exact ⟨[], s, rfl, rfl, by simp⟩
  | succ n ih =>
    obtain ⟨c, s1, hc, hmem⟩ := choice_ok codes h s
    obtain ⟨cs, s2, hcs, hlen, hall⟩ := ih s1
    refine ⟨c :: cs, s2, ?_, by simp [hlen], ?_⟩
    · show RandM.bind (choice codes) _ s = _
      rw [RandM.bind_ok hc, RandM.bind_ok hcs]
      rfl
    · intro x hx
      rcases List.mem_cons.mp hx with h' | h'
      · exact h' ▸ hmem
      · exact hall x h'

theorem drawReads_nil_err (n : Nat) (hn : n ≠ 0) (s : Nat) :
    drawReads [] n s = .error "IndexError" := by
  match n with
  | 0 => exact absurd rfl hn
  | n + 1 =>
    show RandM.bind (choice []) _ s = _
    exact RandM.bind_err (choice_nil_err s)

theorem drawWrites_ok (n : Nat) : ∀ (m s : Nat),
    ∃ ops s', drawWrites m n s = .ok (ops, s') ∧
      ops.length = n ∧
      ops.map Op.code = (List.range n).map (fun i => base62_encode (m + i) 8) ∧
      ∀ op ∈ ops, op.isWrite = true ∧ ∀ ch ∈ op.url.data, ch ∈ URL_CHARS := by
  induction n with
  | zero => exact fun m s => ⟨[], s, rfl, rfl, rfl, by simp⟩
  | succ n ih =>
    intro m s
    obtain ⟨u, s1, hu, hwf⟩ := generate_url_ok s
    obtain ⟨ops, s2, hops, hlen, hcodes, hall⟩ := ih (m + 1) s1
    refine ⟨.write (base62_encode m 8) u :: ops, s2, ?_, by simp [hlen], ?_, ?_⟩
    · show RandM.bind generate_url _ s = _
      rw [RandM.bind_ok hu, RandM.bind_ok hops]
      rfl
    · rw [List.range_succ_eq_map, List.map_cons, List.map_cons, List.map_map]
      refine congrArg₂ _ (by simp [Op.code]) ?_
      rw [hcodes]
      exact List.map_congr_left fun i _ => by
        simp [Function.comp, Nat.add_comm, Nat.add_assoc, Nat.add_left_comm]
    · intro op hop
      rcases List.mem_cons.mp hop with h' | h'
      · subst h'
        exact ⟨rfl, hwf⟩
      · exact hall op h'

theorem shuffleGo_perm {α : Type} : ∀ (fuel : Nat) (xs : List α) (s : Nat),
    xs.length ≤ fuel → ((shuffleGo fuel xs s).1).Perm xs := by
  intro fuel
  induction fuel with
  | zero => intro xs s _; simp [shuffleGo]
  | succ fuel ih =>
    intro xs s hlen
    match xs with
    | [] => simp [shuffleGo]
    | x :: rest =>
      have hpos : 0 < (x :: rest).length := by simp
      have hi : lcgNext s % (x :: rest).length < (x :: rest).length :=
        Nat.mod_lt _ hpos
      set l := x :: rest with hl
      set i := lcgNext s % l.length with hidef
      have hrest : (l.eraseIdx i).length ≤ fuel := by
        rw [List.length_eraseIdx]
        simp only [hi, if_true]
        omega
      have hperm1 : ((shuffleGo fuel (l.eraseIdx i) (lcgNext s)).1).Perm (l.eraseIdx i) :=
        ih _ _ hrest
      have hpick : l.getD i x = l.get ⟨i, hi⟩ := List.getD_eq_get _ _ hi
      have hsplit : List.Perm (l.get ⟨i, hi⟩ :: l.eraseIdx i) l := by
        rw [List.eraseIdx_eq_take_drop_succ]
        have h1 : List.Perm
            (l.get ⟨i, hi⟩ :: (List.take i l ++ List.drop (i + 1) l))
            (List.take i l ++ l.get ⟨i, hi⟩ :: List.drop (i + 1) l) :=
          List.perm_middle.symm
        have h2 : List.take i l ++ l.get ⟨i, hi⟩ :: List.drop (i + 1) l = l := by
          rw [List.get_cons_drop]
          exact List.take_append_drop i l
        rw [h2] at h1
        exact h1
      show ((shuffleGo (fuel + 1) l s).1).Perm l
      have hstep : (shuffleGo (fuel + 1) l s) =
          (l.getD i x :: (shuffleGo fuel (l.eraseIdx i) (lcgNext s)).1,
            (shuffleGo fuel (l.eraseIdx i) (lcgNext s)).2) := rfl
      rw [hstep, hpick]
      exact (hperm1.cons _).trans hsplit

theorem shuffle_ok {α : Type} (xs : List α) (s : Nat) :
    ∃ (out : List α) (s' : Nat), shuffle xs s = .ok (out, s') ∧ out.Perm xs :=
  ⟨(shuffleGo xs.length xs s).1, (shuffleGo xs.length xs s).2, rfl,
    shuffleGo_perm _ _ _ le_rfl⟩

theorem n_reads_toNat (n_ops : Nat) (pct : Int) (h0 : 0 ≤ pct) :
    (n_reads_of n_ops pct).toNat = n_ops * pct.toNat / 100 := by
  unfold n_reads_of
  lift pct to ℕ using h0 with p
  rw [show ((n_ops : ℤ) * (p : ℤ)) = ((n_ops * p : ℕ) : ℤ) by push_cast; ring]
  rw [show Int.tdiv ((n_ops * p : ℕ) : ℤ) (100 : ℤ) = ((n_ops * p / 100 : ℕ) : ℤ) from rfl,
    Int.toNat_natCast, Int.toNat_natCast]

theorem n_reads_nonneg (n_ops : Nat) (pct : Int) (h0 : 0 ≤ pct) :
    0 ≤ n_reads_of n_ops pct :=
  Int.tdiv_nonneg (mul_nonneg (by positivity) h0) (by norm_num)

theorem n_reads_toNat_le (n_ops : Nat) (pct : Int) (h0 : 0 ≤ pct)
    (h1 : pct ≤ 100) : (n_reads_of n_ops pct).toNat ≤ n_ops := by
  rw [n_reads_toNat _ _ h0]
  have hp : pct.toNat ≤ 100 := Int.toNat_le.mpr h1
  calc n_ops * pct.toNat / 100 ≤ n_ops * 100 / 100 :=
        Nat.div_le_div_right (Nat.mul_le_mul_left _ hp)
    _ = n_ops := Nat.mul_div_cancel _ (by norm_num)

theorem n_writes_toNat (n_ops : Nat) (pct : Int) (h0 : 0 ≤ pct)
    (h1 : pct ≤ 100) :
    (n_writes_of n_ops pct).toNat = n_ops - (n_reads_of n_ops pct).toNat := by
  have hr0 := n_reads_nonneg n_ops pct h0
  have hrle := n_reads_toNat_le n_ops pct h0 h1
  unfold n_writes_of
  omega

theorem hot_reads_nonneg (r : Int) (h : 0 ≤ r) : 0 ≤ hot_reads_of r :=
  Int.tdiv_nonneg (by positivity) (by norm_num)

theorem hot_reads_le (r : Int) (h : 0 ≤ r) : hot_reads_of r ≤ r := by
  unfold hot_reads_of
  lift r to ℕ using h with m
  rw [show ((m : ℤ) * 4) = ((m * 4 : ℕ) : ℤ) by push_cast; ring]
  rw [show Int.tdiv ((m * 4 : ℕ) : ℤ) (5 : ℤ) = ((m * 4 / 5 : ℕ) : ℤ) from rfl]
  have : m * 4 / 5 ≤ m := by
    calc m * 4 / 5 ≤ m * 5 / 5 := Nat.div_le_div_right (by omega)
      _ = m := Nat.mul_div_cancel _ (by norm_num)
  exact_mod_cast this

theorem n_reads_nonpos (n_ops : Nat) (pct : Int) (h : pct ≤ 0) :
    n_reads_of n_ops pct ≤ 0 := by
  unfold n_reads_of
  have : (n_ops : ℤ) * pct = -((n_ops : ℤ) * (-pct)) := by ring
  rw [this, Int.neg_tdiv]
  have : 0 ≤ Int.tdiv ((n_ops : ℤ) * (-pct)) 100 :=
    Int.tdiv_nonneg (mul_nonneg (by positivity) (by omega)) (by norm_num)
  omega

theorem n_reads_toNat_ge (n_ops : Nat) (pct : Int) (h : 100 < pct) :
    n_ops ≤ (n_reads_of n_ops pct).toNat := by
  rw [n_reads_toNat _ _ (by omega)]
  have hp : 100 ≤ pct.toNat := by omega
  rw [Nat.le_div_iff_mul_le (by norm_num : (0 : ℕ) < 100)]
  exact Nat.mul_le_mul_left _ hp

theorem hot_prefix_ne_nil (codes : List String) (hc : codes ≠ []) :
    codes.take (hot_size_of codes) ≠ [] := by
  match codes with
  | [] => exact absurd rfl hc
  | c :: t =>
    have h1 : 1 ≤ hot_size_of (c :: t) := le_max_left _ _
    obtain ⟨k, hk⟩ : ∃ k, hot_size_of (c :: t) = k + 1 :=
      ⟨hot_size_of (c :: t) - 1, by omega⟩
    rw [hk]
    simp [List.take]

theorem generate_ops_uniform_ok (n_ops : Nat) (codes : List String) (pct : Int)
    (seed : Nat) (hc : codes ≠ []) :
    ∃ ops : List Op, generate_ops_uniform n_ops codes pct seed = .ok ops ∧
      ∃ (rs : List String) (ws : List Op),
        List.Perm ops (rs.map Op.read ++ ws) ∧
        rs.length = (n_reads_of n_ops pct).toNat ∧
        (∀ c ∈ rs, c ∈ codes) ∧
        ws.length = (n_writes_of n_ops pct).toNat ∧
        ws.map Op.code = (List.range (n_writes_of n_ops pct).toNat).map
          (fun i => base62_encode (codes.length + i) 8) ∧
        ∀ op ∈ ws, op.isWrite = true ∧ ∀ ch ∈ op.url.data, ch ∈ URL_CHARS := by
  obtain ⟨rs, s1, hr, hrlen, hrmem⟩ :=
    drawReads_ok codes hc (n_reads_of n_ops pct).toNat (seedState seed)
  obtain ⟨ws, s2, hw, hwlen, hwcodes, hwall⟩ :=
    drawWrites_ok (n_writes_of n_ops pct).toNat codes.length s1
  obtain ⟨out, s3, hs, hperm⟩ := shuffle_ok (rs.map Op.read ++ ws) s2
  refine ⟨out, ?_, rs, ws, hperm, hrlen, hrmem, hwlen, hwcodes, hwall⟩
  have hrun : (RandM.bind (drawReads codes (n_reads_of n_ops pct).toNat) fun reads =>
      RandM.bind (drawWrites codes.length (n_writes_of n_ops pct).toNat) fun writes =>
      shuffle (reads ++ writes)) (seedState seed) = .ok (out, s3) := by
    rw [RandM.bind_ok hr, RandM.bind_ok hw, hs]
  simp only [generate_ops_uniform, hrun, Except.map]

theorem generate_ops_hot_ok (n_ops : Nat) (codes : List String) (pct : Int)
    (seed : Nat) (hc : codes ≠ []) :
    ∃ ops : List Op, generate_ops_hot n_ops codes pct seed = .ok ops ∧
      ∃ (hs cs : List String) (ws : List Op),
        List.Perm ops (hs.map Op.read ++ cs.map Op.read ++ ws) ∧
        hs.length = (hot_reads_of (n_reads_of n_ops pct)).toNat ∧
        (∀ c ∈ hs, c ∈ codes.take (hot_size_of codes)) ∧
        cs.length = (n_reads_of n_ops pct - hot_reads_of (n_reads_of n_ops pct)).toNat ∧
        (∀ c ∈ cs, c ∈ (if (codes.drop (hot_size_of codes)).isEmpty then codes
          else codes.drop (hot_size_of codes))) ∧
        ws.length = (n_writes_of n_ops pct).toNat ∧
        ws.map Op.code = (List.range (n_writes_of n_ops pct).toNat).map
          (fun i => base62_encode (codes.length + i) 8) ∧
        ∀ op ∈ ws, op.isWrite = true ∧ ∀ ch ∈ op.url.data, ch ∈ URL_CHARS := by
  have hhot : codes.take (hot_size_of codes) ≠ [] := hot_prefix_ne_nil codes hc
  have hcold : (if (codes.drop (hot_size_of codes)).isEmpty then codes
      else codes.drop (hot_size_of codes)) ≠ [] := by
    by_cases h : (codes.drop (hot_size_of codes)).isEmpty
    · simpa [h] using hc
    · rw [if_neg h]
      intro hnil
      exact h (by rw [hnil]; rfl)
  obtain ⟨hs, s1, hhr, hhlen, hhmem⟩ :=
    drawReads_ok (codes.take (hot_size_of codes)) hhot
      (hot_reads_of (n_reads_of n_ops pct)).toNat (seedState seed)
  obtain ⟨cs, s2, hcr, hclen, hcmem⟩ :=
    drawReads_ok _ hcold
      (n_reads_of n_ops pct - hot_reads_of (n_reads_of n_ops pct)).toNat s1
  obtain ⟨ws, s3, hw, hwlen, hwcodes, hwall⟩ :=
    drawWrites_ok (n_writes_of n_ops pct).toNat codes.length s2
  obtain ⟨out, s4, hsh, hperm⟩ :=
    shuffle_ok (hs.map Op.read ++ cs.map Op.read ++ ws) s3
  refine ⟨out, ?_, hs, cs, ws, hperm, hhlen, hhmem, hclen, hcmem, hwlen,
    hwcodes, hwall⟩
  have hrun : (RandM.bind (drawReads (codes.take (hot_size_of codes))
        (hot_reads_of (n_reads_of n_ops pct)).toNat) fun hreads =>
      RandM.bind (drawReads (if (codes.drop (hot_size_of codes)).isEmpty then codes
          else codes.drop (hot_size_of codes))
        (n_reads_of n_ops pct - hot_reads_of (n_reads_of n_ops pct)).toNat) fun creads =>
      RandM.bind (drawWrites codes.length (n_writes_of n_ops pct).toNat) fun writes =>
      shuffle (hreads ++ creads ++ writes)) (seedState seed) = .ok (out, s4) := by
    rw [RandM.bind_ok hhr, RandM.bind_ok hcr, RandM.bind_ok hw, hsh]
  simp only [generate_ops_hot, hrun, Except.map]

theorem countP_read_of_reads (rs : List String) :
    (rs.map Op.read).countP Op.isRead = rs.length := by
  rw [List.countP_map]
  have h : (Op.isRead ∘ Op.read) = fun _ => true := rfl
  rw [h, List.countP_true]

theorem countP_write_of_reads (rs : List String) :
    (rs.map Op.read).countP Op.isWrite = 0 := by
  refine List.countP_eq_zero.mpr ?_
  intro op hop
  obtain ⟨c, _, rfl⟩ := List.mem_map.mp hop
  simp [Op.isWrite]

theorem countP_read_of_writes (ws : List Op) (hw : ∀ op ∈ ws, op.isWrite = true) :
    ws.countP Op.isRead = 0 := by
  refine List.countP_eq_zero.mpr ?_
  intro op hop
  have := hw op hop
  cases op <;> simp_all [Op.isRead, Op.isWrite]

theorem countP_write_of_writes (ws : List Op) (hw : ∀ op ∈ ws, op.isWrite = true) :
    ws.countP Op.isWrite = ws.length :=
  List.countP_eq_length.mpr hw

/-- C3 (amended): for every `n_ops`, every `read_pct` in `[0, 100]` and
every non-empty initial key set, both the uniform and the hot generator
return a sequence of exactly `n_ops` operations, of which
`int(n_ops * read_pct / 100)` (truncating division, not `round`) are reads
and the rest writes. -/
theorem c3_operation_count_invariant (n_ops : Nat) (pct : Int)
    (codes : List String) (seed : Nat) (hc : codes ≠ [])
    (h0 : 0 ≤ pct) (h1 : pct ≤ 100) :
    (∃ ops : List Op, generate_ops_uniform n_ops codes pct seed = .ok ops ∧
      ops.length = n_ops ∧
      ops.countP Op.isRead = (n_reads_of n_ops pct).toNat ∧
      ops.countP Op.isWrite = n_ops - (n_reads_of n_ops pct).toNat) ∧
    (∃ ops : List Op, generate_ops_hot n_ops codes pct seed = .ok ops ∧
      ops.length = n_ops ∧
      ops.countP Op.isRead = (n_reads_of n_ops pct).toNat ∧
      ops.countP Op.isWrite = n_ops - (n_reads_of n_ops pct).toNat) := by
  have hrle := n_reads_toNat_le n_ops pct h0 h1
  have hwN := n_writes_toNat n_ops pct h0 h1
  constructor
  · obtain ⟨ops, hops, rs, ws, hperm, hrlen, _, hwlen, _, hwall⟩ :=
      generate_ops_uniform_ok n_ops codes pct seed hc
    refine ⟨ops, hops, ?_, ?_, ?_⟩
    · rw [hperm.length_eq, List.length_append, List.length_map, hrlen, hwlen, hwN]
      omega
    · rw [hperm.countP_eq, List.countP_append, countP_read_of_reads,
        countP_read_of_writes ws (fun op hop => (hwall op hop).1), hrlen]
      omega
    · rw [hperm.countP_eq, List.countP_append, countP_write_of_reads,
        countP_write_of_writes ws (fun op hop => (hwall op hop).1), hwlen, hwN]
      omega
  · obtain ⟨ops, hops, hs, cs, ws, hperm, hhlen, _, hclen, _, hwlen, _, hwall⟩ :=
      generate_ops_hot_ok n_ops codes pct seed hc
    have hr0 := n_reads_nonneg n_ops pct h0
    have hh0 := hot_reads_nonneg (n_reads_of n_ops pct) hr0
    have hhle := hot_reads_le (n_reads_of n_ops pct) hr0
    have hsum : hs.length + cs.length = (n_reads_of n_ops pct).toNat := by
      rw [hhlen, hclen]; omega
    refine ⟨ops, hops, ?_, ?_, ?_⟩
    · rw [hperm.length_eq]
      rw [List.length_append, List.length_append, List.length_map,
        List.length_map, hwlen, hwN]
      omega
    · rw [hperm.countP_eq, List.countP_append, List.countP_append,
        countP_read_of_reads, countP_read_of_reads,
        countP_read_of_writes ws (fun op hop => (hwall op hop).1)]
      omega
    · rw [hperm.countP_eq, List.countP_append, List.countP_append,
        countP_write_of_reads, countP_write_of_reads,
        countP_write_of_writes ws (fun op hop => (hwall op hop).1), hwlen, hwN]
      omega

theorem c3_operation_count_invariant_witness :
    (∃ ops : List Op, generate_ops_uniform 3 ["00000000"] 50 7 = .ok ops ∧
      ops.length = 3 ∧
      ops.countP Op.isRead = (n_reads_of 3 50).toNat ∧
      ops.countP Op.isWrite = 3 - (n_reads_of 3 50).toNat) ∧
    (∃ ops : List Op, generate_ops_hot 3 ["00000000"] 50 7 = .ok ops ∧
      ops.length = 3 ∧
      ops.countP Op.isRead = (n_reads_of 3 50).toNat ∧
      ops.countP Op.isWrite = 3 - (n_reads_of 3 50).toNat) :=
  c3_operation_count_invariant 3 50 ["00000000"] 7 (by decide) (by decide)
    (by decide)

set_option maxRecDepth 40000 in
/-- C3 (counterexample): at `n_ops = 2`, `read_pct = 75` the exact
fraction is `1.5`; the code's `int()` truncates to 1 read while the spec's
`round()` gives 2, so the claimed read count `round(n_ops * read_pct / 100)`
does not hold. -/
theorem c3_round_counterexample :
    (generate_ops_uniform 2 ["00000000"] 75 1).toOption.map
      (List.countP Op.isRead) = some 1 ∧
    pyRound (2 * 75) 100 = 2 :=
  ⟨by decide, by decide⟩

theorem hot_reads_neg_eq (r : Int) : hot_reads_of r = -hot_reads_of (-r) := by
  unfold hot_reads_of
  rw [show r * 4 = -(-r * 4) by ring, Int.neg_tdiv]

theorem hot_reads_ge_of_nonpos (r : Int) (h : r ≤ 0) : r ≤ hot_reads_of r := by
  rw [hot_reads_neg_eq]
  have h1 := hot_reads_le (-r) (by omega)
  omega

theorem hot_reads_nonpos (r : Int) (h : r ≤ 0) : hot_reads_of r ≤ 0 := by
  rw [hot_reads_neg_eq]
  have h1 := hot_reads_nonneg (-r) (by omega)
  omega

/-- C9: with an empty initial key set and a computed read count of at
least one, both generators abort with the uncaught IndexError raised by
`random.choice` on an empty sequence; no up-front rejection and no fallback
applies (hot mode's fallback only replaces the cold partition, which is also
empty here). -/
theorem c9_empty_keyset_index_error (n_ops : Nat) (pct : Int) (seed : Nat)
    (h : 1 ≤ n_reads_of n_ops pct) :
    generate_ops_uniform n_ops [] pct seed = .error "IndexError" ∧
    generate_ops_hot n_ops [] pct seed = .error "IndexError" := by
  have hr1 : 1 ≤ (n_reads_of n_ops pct).toNat := by omega
  constructor
  · have herr : drawReads [] (n_reads_of n_ops pct).toNat (seedState seed) =
        .error "IndexError" := drawReads_nil_err _ (by omega) _
    simp only [generate_ops_uniform, RandM.bind_err herr, Except.map]
  · have hh0 : 0 ≤ hot_reads_of (n_reads_of n_ops pct) :=
      hot_reads_nonneg _ (by omega)
    have hhle : hot_reads_of (n_reads_of n_ops pct) ≤ n_reads_of n_ops pct :=
      hot_reads_le _ (by omega)
    simp only [generate_ops_hot, List.take_nil, List.drop_nil, List.isEmpty_nil,
      if_true]
    by_cases hk : (hot_reads_of (n_reads_of n_ops pct)).toNat = 0
    · have h2 : (n_reads_of n_ops pct - hot_reads_of (n_reads_of n_ops pct)).toNat ≠ 0 := by
        omega
      have hok : drawReads [] (hot_reads_of (n_reads_of n_ops pct)).toNat
          (seedState seed) = .ok ([], seedState seed) := by
        rw [hk]; rfl
      have herr : drawReads []
          (n_reads_of n_ops pct - hot_reads_of (n_reads_of n_ops pct)).toNat
          (seedState seed) = .error "IndexError" := drawReads_nil_err _ h2 _
      rw [RandM.bind_ok hok, RandM.bind_err herr]
      rfl
    · have herr : drawReads [] (hot_reads_of (n_reads_of n_ops pct)).toNat
          (seedState seed) = .error "IndexError" := drawReads_nil_err _ hk _
      rw [RandM.bind_err herr]
      rfl

theorem c9_empty_keyset_index_error_witness :
    1 ≤ n_reads_of 1 100 ∧
    generate_ops_uniform 1 [] 100 3 = .error "IndexError" ∧
    generate_ops_hot 1 [] 100 3 = .error "IndexError" :=
  ⟨by decide, (c9_empty_keyset_index_error 1 100 3 (by decide)).1,
    (c9_empty_keyset_index_error 1 100 3 (by decide)).2⟩

/-- C10 (amended): out-of-range `read_pct` still yields a sequence, with
length `int(n_ops * read_pct / 100)` (all reads) for `read_pct > 100` and
length `n_ops - int(n_ops * read_pct / 100)` (all writes) for `read_pct < 0`;
in both cases the length is at least `n_ops` (equality is possible for small
`n_ops`, e.g. `n_ops ≤ 1`, so the claim's strict `>` fails). -/
theorem c10_out_of_range_read_pct (n_ops : Nat) (pct : Int)
    (codes : List String) (seed : Nat) (hc : codes ≠ []) :
    (100 < pct →
      (∃ ops : List Op, generate_ops_uniform n_ops codes pct seed = .ok ops ∧
        ops.length = (n_reads_of n_ops pct).toNat ∧ n_ops ≤ ops.length ∧
        ∀ op ∈ ops, op.isRead = true) ∧
      (∃ ops : List Op, generate_ops_hot n_ops codes pct seed = .ok ops ∧
        ops.length = (n_reads_of n_ops pct).toNat ∧ n_ops ≤ ops.length ∧
        ∀ op ∈ ops, op.isRead = true)) ∧
    (pct < 0 →
      (∃ ops : List Op, generate_ops_uniform n_ops codes pct seed = .ok ops ∧
        ops.length = (n_writes_of n_ops pct).toNat ∧ n_ops ≤ ops.length ∧
        ∀ op ∈ ops, op.isWrite = true) ∧
      (∃ ops : List Op, generate_ops_hot n_ops codes pct seed = .ok ops ∧
        ops.length = (n_writes_of n_ops pct).toNat ∧ n_ops ≤ ops.length ∧
        ∀ op ∈ ops, op.isWrite = true)) := by
  constructor
  · intro hpct
    have hr0 : 0 ≤ n_reads_of n_ops pct := n_reads_nonneg _ _ (by omega)
    have hge := n_reads_toNat_ge n_ops pct hpct
    have hwN0 : (n_writes_of n_ops pct).toNat = 0 := by
      unfold n_writes_of
      omega
    have hh0 := hot_reads_nonneg (n_reads_of n_ops pct) hr0
    have hhle := hot_reads_le (n_reads_of n_ops pct) hr0
    constructor
    · obtain ⟨ops, hops, rs, ws, hperm, hrlen, _, hwlen, _, _⟩ :=
        generate_ops_uniform_ok n_ops codes pct seed hc
      have hws : ws = [] := List.length_eq_zero.mp (hwlen.trans hwN0)
      subst hws
      rw [List.append_nil] at hperm
      refine ⟨ops, hops, ?_, ?_, ?_⟩
      · rw [hperm.length_eq, List.length_map, hrlen]
      · rw [hperm.length_eq, List.length_map, hrlen]; omega
      · intro op hop
        obtain ⟨c, _, rfl⟩ := List.mem_map.mp (hperm.mem_iff.mp hop)
        rfl
    · obtain ⟨ops, hops, hs, cs, ws, hperm, hhlen, _, hclen, _, hwlen, _, _⟩ :=
        generate_ops_hot_ok n_ops codes pct seed hc
      have hws : ws = [] := List.length_eq_zero.mp (hwlen.trans hwN0)
      subst hws
      rw [List.append_nil] at hperm
      refine ⟨ops, hops, ?_, ?_, ?_⟩
      · rw [hperm.length_eq, List.length_append, List.length_map,
          List.length_map, hhlen, hclen]
        omega
      · rw [hperm.length_eq, List.length_append, List.length_map,
          List.length_map, hhlen, hclen]
        omega
      · intro op hop
        rcases List.mem_append.mp (hperm.mem_iff.mp hop) with h' | h' <;>
          · obtain ⟨c, _, rfl⟩ := List.mem_map.mp h'
            rfl
  · intro hpct
    have hrle : n_reads_of n_ops pct ≤ 0 := n_reads_nonpos _ _ (by omega)
    have hrN0 : (n_reads_of n_ops pct).toNat = 0 := by omega
    have hwge : n_ops ≤ (n_writes_of n_ops pct).toNat := by
      unfold n_writes_of
      omega
    have hh0 : hot_reads_of (n_reads_of n_ops pct) ≤ 0 :=
      hot_reads_nonpos _ hrle
    have hhge : n_reads_of n_ops pct ≤ hot_reads_of (n_reads_of n_ops pct) :=
      hot_reads_ge_of_nonpos _ hrle
    constructor
    · obtain ⟨ops, hops, rs, ws, hperm, hrlen, _, hwlen, _, hwall⟩ :=
        generate_ops_uniform_ok n_ops codes pct seed hc
      have hrs : rs = [] := List.length_eq_zero.mp (hrlen.trans hrN0)
      subst hrs
      rw [List.map_nil, List.nil_append] at hperm
      refine ⟨ops, hops, ?_, ?_, ?_⟩
      · rw [hperm.length_eq, hwlen]
      · rw [hperm.length_eq, hwlen]; omega
      · intro op hop
        exact (hwall op (hperm.mem_iff.mp hop)).1
    · obtain ⟨ops, hops, hs, cs, ws, hperm, hhlen, _, hclen, _, hwlen, _, hwall⟩ :=
        generate_ops_hot_ok n_ops codes pct seed hc
      have hhs : hs = [] := List.length_eq_zero.mp (by omega)
      have hcs : cs = [] := List.length_eq_zero.mp (by omega)
      subst hhs
      subst hcs
      rw [List.map_nil, List.nil_append, List.nil_append] at hperm
      refine ⟨ops, hops, ?_, ?_, ?_⟩
      · rw [hperm.length_eq, hwlen]
      · rw [hperm.length_eq, hwlen]; omega
      · intro op hop
        exact (hwall op (hperm.mem_iff.mp hop)).1

theorem c10_out_of_range_read_pct_witness :
    (100 : Int) < 150 ∧
    (∃ ops : List Op, generate_ops_uniform 2 ["00000000"] 150 5 = .ok ops ∧
      ops.length = (n_reads_of 2 150).toNat ∧ 2 ≤ ops.length ∧
      ∀ op ∈ ops, op.isRead = true) :=
  ⟨by decide,
    ((c10_out_of_range_read_pct 2 150 ["00000000"] 5 (by decide)).1
      (by decide)).1⟩

set_option maxRecDepth 40000 in
/-- C10 (counterexample): at `n_ops = 1`, `read_pct = 150` the generated
sequence has exactly `int(1 * 150 / 100) = 1` operation, which is not strictly
greater than `n_ops = 1` as the claim asserts. -/
theorem c10_strict_growth_counterexample :
    (generate_ops_uniform 1 ["00000000"] 150 1).toOption.map List.length =
      some 1 ∧ ¬(1 : Nat) < 1 :=
  ⟨by decide, by omega⟩

set_option maxRecDepth 40000 in
/-- C4 (code evaluated at the failing input): with `read_pct = 150`,
outside `[0, 100]`, the program performs no validation and no fail-fast
error: operation generation proceeds normally and returns a (read-only)
sequence instead of aborting before generation. -/
theorem c4_no_fail_fast_on_invalid_config :
    (generate_ops_uniform 1 ["00000000"] 150 1).toOption.map
      (fun ops => (ops.length, ops.countP Op.isRead)) = some (1, 1) ∧
    generate_ops_uniform 0 ["00000000"] (-5) 1 = .ok [] :=
  ⟨by decide, by rfl⟩

set_option maxRecDepth 40000 in
/-- C2 (code evaluated at the failing input): with one initial entry and
52 all-write operations, the 52nd write carries code
`base62_encode(1 + 51) = base62_encode(52) = "00000000"`, which equals the
single initial code `base62_encode(0)`; write codes are not disjoint from
the initial key set. -/
theorem c2_write_code_collides_with_initial :
    (match generate_initial_dataset 1 12345 with
     | none => false
     | some entries =>
       match generate_ops_uniform 52 (entries.map Prod.fst) 0 12346 with
       | .error _ => false
       | .ok ops =>
         (writeCodes ops).any (fun c => (entries.map Prod.fst).contains c)) =
      true := by
  decide

/-- C7: both phases are pure functions of their arguments — identical
arguments give identical results (the embedding is deterministic: the
pseudo-random stream is a function of the seed alone) — and `main` derives
the phase-2 seed deterministically as `seed + 1`, which differs from the
phase-1 seed. -/
theorem c7_determinism (n n' seed seed' n_ops n_ops' : Nat) (pct pct' : Int)
    (dist dist' : DistMode) (codes codes' : List String) (opseed : Nat)
    (h1 : n = n') (h2 : seed = seed') (h3 : n_ops = n_ops') (h4 : pct = pct')
    (h5 : dist = dist') (h6 : codes = codes') :
    generate_initial_dataset n seed = generate_initial_dataset n' seed' ∧
    gen_ops dist n_ops codes pct opseed = gen_ops dist' n_ops' codes' pct' opseed ∧
    phase2_seed seed = seed + 1 ∧ phase2_seed seed ≠ seed := by
  subst h1; subst h2; subst h3; subst h4; subst h5; subst h6
  exact ⟨rfl, rfl, rfl, by simp [phase2_seed]⟩

theorem c7_determinism_witness :
    generate_initial_dataset 2 5 = generate_initial_dataset 2 5 ∧
    gen_ops .uniform 3 ["00000000"] 50 9 = gen_ops .uniform 3 ["00000000"] 50 9 ∧
    phase2_seed 5 = 5 + 1 ∧ phase2_seed 5 ≠ 5 :=
  c7_determinism 2 2 5 5 3 3 50 50 .uniform .uniform ["00000000"] ["00000000"]
    9 rfl rfl rfl rfl rfl rfl

/-- C6: hot-mode reads are drawn as the code describes: a hot prefix of
size `max(1, len // 5)`, exactly `int(n_reads * 0.8)` reads sampled from it,
the remaining reads sampled from the cold remainder — or from the full key
set when the cold remainder is empty — and the final sequence is a
permutation of those reads together with the writes. -/
theorem c6_hot_mode_structure (n_ops : Nat) (pct : Int) (codes : List String)
    (seed : Nat) (hc : codes ≠ []) (h0 : 0 ≤ pct) (h1 : pct ≤ 100) :
    ∃ (ops : List Op) (hs cs : List String) (ws : List Op),
      generate_ops_hot n_ops codes pct seed = .ok ops ∧
      List.Perm ops (hs.map Op.read ++ cs.map Op.read ++ ws) ∧
      hs.length = (hot_reads_of (n_reads_of n_ops pct)).toNat ∧
      (∀ c ∈ hs, c ∈ codes.take (hot_size_of codes)) ∧
      cs.length = (n_reads_of n_ops pct).toNat -
        (hot_reads_of (n_reads_of n_ops pct)).toNat ∧
      (codes.drop (hot_size_of codes) ≠ [] →
        ∀ c ∈ cs, c ∈ codes.drop (hot_size_of codes)) ∧
      (codes.drop (hot_size_of codes) = [] → ∀ c ∈ cs, c ∈ codes) ∧
      (∀ op ∈ ws, op.isWrite = true) := by
  obtain ⟨ops, hops, hs, cs, ws, hperm, hhlen, hhmem, hclen, hcmem, hwlen,
    hwcodes, hwall⟩ := generate_ops_hot_ok n_ops codes pct seed hc
  have hr0 := n_reads_nonneg n_ops pct h0
  have hh0 := hot_reads_nonneg (n_reads_of n_ops pct) hr0
  have hhle := hot_reads_le (n_reads_of n_ops pct) hr0
  refine ⟨ops, hs, cs, ws, hops, hperm, hhlen, hhmem, by rw [hclen]; omega,
    ?_, ?_, fun op hop => (hwall op hop).1⟩
  · intro hcold c hcs
    have h' := hcmem c hcs
    rw [if_neg (by simp [hcold])] at h'
    exact h'
  · intro hcold c hcs
    have h' := hcmem c hcs
    rw [if_pos (by simp [hcold])] at h'
    exact h'

theorem c6_hot_mode_structure_witness :
    ∃ (ops : List Op) (hs cs : List String) (ws : List Op),
      generate_ops_hot 5
        ["00000000", "0000000b", "0000000c", "0000000d", "0000000e",
          "0000000f"] 80 7 = .ok ops ∧
      List.Perm ops (hs.map Op.read ++ cs.map Op.read ++ ws) ∧
      hs.length = (hot_reads_of (n_reads_of 5 80)).toNat ∧
      (∀ c ∈ hs, c ∈ (["00000000", "0000000b", "0000000c", "0000000d",
        "0000000e", "0000000f"] : List String).take (hot_size_of
          ["00000000", "0000000b", "0000000c", "0000000d", "0000000e",
            "0000000f"])) ∧
      cs.length = (n_reads_of 5 80).toNat -
        (hot_reads_of (n_reads_of 5 80)).toNat ∧
      ((["00000000", "0000000b", "0000000c", "0000000d", "0000000e",
          "0000000f"] : List String).drop (hot_size_of
          ["00000000", "0000000b", "0000000c", "0000000d", "0000000e",
            "0000000f"]) ≠ [] →
        ∀ c ∈ cs, c ∈ (["00000000", "0000000b", "0000000c", "0000000d",
          "0000000e", "0000000f"] : List String).drop (hot_size_of
            ["00000000", "0000000b", "0000000c", "0000000d", "0000000e",
              "0000000f"])) ∧
      ((["00000000", "0000000b", "0000000c", "0000000d", "0000000e",
          "0000000f"] : List String).drop (hot_size_of
          ["00000000", "0000000b", "0000000c", "0000000d", "0000000e",
            "0000000f"]) = [] →
        ∀ c ∈ cs, c ∈ (["00000000", "0000000b", "0000000c", "0000000d",
          "0000000e", "0000000f"] : List String)) ∧
      (∀ op ∈ ws, op.isWrite = true) :=
  c6_hot_mode_structure 5 80
    ["00000000", "0000000b", "0000000c", "0000000d", "0000000e", "0000000f"]
    7 (by decide) (by decide) (by decide)

/-- C1 (code evaluated at the failing input): `base62_encode` is not
injective on the non-negative integers — `0` and `52` both encode to
`"00000000"`, because the padding character `'0'` is itself the alphabet's
digit 52 (`BASE62[52] = '0'`). -/
theorem c1_base62_encode_collision :
    base62_encode 0 8 = "00000000" ∧ base62_encode 52 8 = "00000000" ∧
    (0 : Nat) ≠ 52 :=
  ⟨by decide, by decide, by omega⟩

theorem b62digitsGo_congr : ∀ (n f1 f2 : Nat), n ≤ f1 → n ≤ f2 →
    b62digitsGo f1 n = b62digitsGo f2 n := by
  intro n
  induction n using Nat.strong_induction_on with
  | _ n ih =>
    intro f1 f2 h1 h2
    match n, f1, f2 with
    | 0, f1, f2 => cases f1 <;> cases f2 <;> rfl
    | n + 1, f1 + 1, f2 + 1 =>
      show BASE62.getD ((n + 1) % 62) 'a' :: b62digitsGo f1 ((n + 1) / 62) =
        BASE62.getD ((n + 1) % 62) 'a' :: b62digitsGo f2 ((n + 1) / 62)
      have hdiv : (n + 1) / 62 < n + 1 := Nat.div_lt_self (Nat.succ_pos n) (by norm_num)
      exact congrArg _ (ih ((n + 1) / 62) hdiv f1 f2 (by omega) (by omega))

theorem base62_digits_unfold (n : Nat) :
    base62_digits n = if n = 0 then []
      else BASE62.getD (n % 62) 'a' :: base62_digits (n / 62) := by
  match n with
  | 0 => rfl
  | n + 1 =>
    rw [if_neg (Nat.succ_ne_zero n)]
    show b62digitsGo (n + 1) (n + 1) = _
    have hdiv : (n + 1) / 62 < n + 1 := Nat.div_lt_self (Nat.succ_pos n) (by norm_num)
    show BASE62.getD ((n + 1) % 62) 'a' :: b62digitsGo n ((n + 1) / 62) = _
    exact congrArg _ (b62digitsGo_congr ((n + 1) / 62) n ((n + 1) / 62)
      (by omega) le_rfl)

theorem base62_digits_eq_nil (n : Nat) : base62_digits n = [] ↔ n = 0 := by
  constructor
  · intro h
    by_contra hn
    rw [base62_digits_unfold, if_neg hn] at h
    exact List.cons_ne_nil _ _ h
  · intro h
    subst h
    rfl

theorem base62_getD_mem : ∀ i, i < 62 → BASE62.getD i 'a' ∈ BASE62 := by
  decide

theorem base62_getD_ne_a : ∀ i, i < 62 → i ≠ 0 → BASE62.getD i 'a' ≠ 'a' := by
  decide

theorem base62_digits_mem : ∀ (n : Nat), ∀ c ∈ base62_digits n, c ∈ BASE62 := by
  intro n
  induction n using Nat.strong_induction_on with
  | _ n ih =>
    intro c hc
    match n with
    | 0 => exact absurd hc (List.not_mem_nil c)
    | n + 1 =>
      rw [base62_digits_unfold, if_neg (Nat.succ_ne_zero n)] at hc
      rcases List.mem_cons.mp hc with h | h
      · exact h ▸ base62_getD_mem _ (Nat.mod_lt _ (by norm_num))
      · exact ih ((n + 1) / 62) (Nat.div_lt_self (Nat.succ_pos n) (by norm_num)) c h

theorem base62_digits_getLast_ne_a : ∀ (n : Nat), n ≠ 0 →
    (base62_digits n).getLast? ≠ some 'a' := by
  intro n
  induction n using Nat.strong_induction_on with
  | _ n ih =>
    intro hn
    rw [base62_digits_unfold, if_neg hn]
    by_cases hq : n / 62 = 0
    · have hlt : n < 62 := by
        by_contra h
        push_neg at h
        have h1 : 1 ≤ n / 62 := (Nat.one_le_div_iff (by norm_num)).mpr h
        omega
      rw [hq, (base62_digits_eq_nil 0).mpr rfl]
      have hmod : n % 62 = n := Nat.mod_eq_of_lt hlt
      have hsing : ([BASE62.getD (n % 62) 'a']).getLast? =
          some (BASE62.getD (n % 62) 'a') := List.getLast?_concat []
      rw [hsing]
      intro hcontra
      exact base62_getD_ne_a (n % 62) (Nat.mod_lt _ (by norm_num))
        (by omega) (Option.some.inj hcontra)
    · obtain ⟨d, tl, htl⟩ : ∃ d tl, base62_digits (n / 62) = d :: tl := by
        rcases h : base62_digits (n / 62) with _ | ⟨d, tl⟩
        · exact absurd ((base62_digits_eq_nil _).mp h) hq
        · exact ⟨d, tl, rfl⟩
      rw [htl, List.getLast?_cons_cons]
      rw [← htl]
      exact ih (n / 62) (Nat.div_lt_self (Nat.pos_of_ne_zero hn) (by norm_num)) hq

theorem base62_digits_length_le : ∀ (k n : Nat), n < 62 ^ k →
    (base62_digits n).length ≤ k := by
  intro k
  induction k with
  | zero =>
    intro n hn
    interval_cases n
    simp [base62_digits, b62digitsGo]
  | succ k ih =>
    intro n hn
    by_cases h0 : n = 0
    · subst h0
      simp [base62_digits, b62digitsGo]
    · rw [base62_digits_unfold, if_neg h0]
      have hq : n / 62 < 62 ^ k := by
        rw [Nat.div_lt_iff_lt_mul (by norm_num)]
        calc n < 62 ^ (k + 1) := hn
          _ = 62 ^ k * 62 := by ring
      simpa using ih (n / 62) hq

theorem base62_digits_length_ge : ∀ (k n : Nat), 62 ^ k ≤ n →
    k + 1 ≤ (base62_digits n).length := by
  intro k
  induction k with
  | zero =>
    intro n hn
    have h0 : n ≠ 0 := by simpa using Nat.one_le_iff_ne_zero.mp hn
    rw [base62_digits_unfold, if_neg h0]
    simp
  | succ k ih =>
    intro n hn
    have h0 : n ≠ 0 := by
      intro h
      subst h
      have hp : 0 < 62 ^ (k + 1) := pow_pos (by norm_num) _
      omega
    rw [base62_digits_unfold, if_neg h0]
    have hq : 62 ^ k ≤ n / 62 := by
      rw [Nat.le_div_iff_mul_le (by norm_num)]
      calc 62 ^ k * 62 = 62 ^ (k + 1) := by ring
        _ ≤ n := hn
    simpa using ih (n / 62) hq

theorem head?_take_succ {α : Type} (l : List α) (k : Nat) :
    (l.take (k + 1)).head? = l.head? := by
  cases l <;> rfl

theorem zero_mem_base62 : '0' ∈ BASE62 := by decide

theorem base62_encode_goodCode (n : Nat) : goodCode (base62_encode n 8) := by
  by_cases h0 : n = 0
  · subst h0
    exact ⟨by decide, by decide, by decide⟩
  · have hdata : (base62_encode n 8).data =
        (base62_digits n ++
          List.replicate (8 - (base62_digits n).length) '0').reverse.take 8 := by
      unfold base62_encode
      rw [if_neg h0]
    set ds := base62_digits n with hds
    set padded := ds ++ List.replicate (8 - ds.length) '0' with hpad
    have hplen : 8 ≤ padded.length := by
      rw [hpad, List.length_append, List.length_replicate]
      omega
    refine ⟨?_, ?_, ?_⟩
    · rw [hdata, List.length_take, List.length_reverse]
      omega
    · intro c hc
      rw [hdata] at hc
      have h1 : c ∈ padded.reverse := List.take_subset _ _ hc
      have h2 : c ∈ padded := List.mem_reverse.mp h1
      rw [hpad] at h2
      rcases List.mem_append.mp h2 with h3 | h3
      · exact base62_digits_mem n c (hds ▸ h3)
      · rw [List.eq_of_mem_replicate h3]
        exact zero_mem_base62
    · rw [hdata]
      have h8 : (8 : Nat) = 7 + 1 := rfl
      rw [h8, head?_take_succ, List.head?_reverse]
      by_cases hlen : ds.length < 8
      · obtain ⟨k, hk⟩ : ∃ k, 8 - ds.length = k + 1 :=
          ⟨8 - ds.length - 1, by omega⟩
        rw [hpad, hk, List.replicate_succ', ← List.append_assoc,
          List.getLast?_concat]
        decide
      · have hrep : 8 - ds.length = 0 := by omega
        rw [hpad, hrep, List.replicate_zero, List.append_nil, hds]
        exact base62_digits_getLast_ne_a n h0

theorem base62_indexOf_getD : ∀ i, i < 62 →
    BASE62.indexOf (BASE62.getD i 'a') = i := by
  decide

theorem base62_getD_indexOf : ∀ c ∈ BASE62,
    BASE62.getD (BASE62.indexOf c) 'a' = c := by
  decide

theorem base62_indexOf_lt : ∀ c ∈ BASE62, BASE62.indexOf c < 62 := by
  decide

theorem base62_indexOf_pos : ∀ c ∈ BASE62, c ≠ 'a' → 1 ≤ BASE62.indexOf c := by
  decide

theorem b62foldl_digits : ∀ n acc : Nat,
    List.foldl b62step acc (base62_digits n).reverse =
      acc * 62 ^ (base62_digits n).length + n := by
  intro n
  induction n using Nat.strong_induction_on with
  | _ n ih =>
    intro acc
    by_cases h0 : n = 0
    · subst h0
      simp [base62_digits, b62digitsGo]
    · rw [base62_digits_unfold, if_neg h0]
      have hq : n / 62 < n := Nat.div_lt_self (Nat.pos_of_ne_zero h0) (by norm_num)
      rw [List.reverse_cons, List.foldl_append, ih (n / 62) hq acc]
      show b62step _ _ = _
      unfold b62step
      rw [base62_indexOf_getD _ (Nat.mod_lt _ (by norm_num))]
      have hmod := Nat.div_add_mod n 62
      rw [List.length_cons, pow_succ]
      have : (acc * 62 ^ (base62_digits (n / 62)).length + n / 62) * 62 + n % 62 =
          acc * (62 ^ (base62_digits (n / 62)).length * 62) +
            (62 * (n / 62) + n % 62) := by ring
      rw [this, hmod]

theorem b62val_encode (n : Nat) (h7 : 62 ^ 7 ≤ n) (h8 : n < 62 ^ 8) :
    b62val (base62_encode n 8).data = n := by
  have hp : 0 < 62 ^ 7 := pow_pos (by norm_num) _
  have h0 : n ≠ 0 := by omega
  have hlen : (base62_digits n).length = 8 :=
    le_antisymm (base62_digits_length_le 8 n h8) (base62_digits_length_ge 7 n h7)
  have hdata : (base62_encode n 8).data = (base62_digits n).reverse := by
    unfold base62_encode
    rw [if_neg h0]
    show (base62_digits n ++
        List.replicate (8 - (base62_digits n).length) '0').reverse.take 8 = _
    have hz : 8 - (base62_digits n).length = 0 := by omega
    rw [hz, List.replicate_zero, List.append_nil]
    exact List.take_of_length_le (by rw [List.length_reverse, hlen])
  rw [hdata]
  unfold b62val
  rw [b62foldl_digits n 0]
  simp

theorem base62_encode_injOn_Ico : ∀ a ∈ Finset.Ico (62 ^ 7) (62 ^ 8),
    ∀ b ∈ Finset.Ico (62 ^ 7) (62 ^ 8),
    base62_encode a 8 = base62_encode b 8 → a = b := by
  intro a ha b hb heq
  rw [Finset.mem_Ico] at ha hb
  have h1 := b62val_encode a ha.1 ha.2
  have h2 := b62val_encode b hb.1 hb.2
  rw [← h1, ← h2, heq]

theorem decodeB62_b62val : ∀ (l : List Char), (∀ c ∈ l, c ∈ BASE62) →
    decodeB62 l.length (b62val l) = l := by
  intro l
  induction l using List.reverseRecOn with
  | nil => intro _; rfl
  | append_singleton l c ih =>
    intro hmem
    have hc : c ∈ BASE62 := hmem c (by simp)
    have hl : ∀ x ∈ l, x ∈ BASE62 := fun x hx => hmem x (by simp [hx])
    have hval : b62val (l ++ [c]) = b62val l * 62 + BASE62.indexOf c := by
      unfold b62val
      rw [List.foldl_append]
      rfl
    have hidx : BASE62.indexOf c < 62 := base62_indexOf_lt c hc
    have hlen : (l ++ [c]).length = l.length + 1 := by simp
    rw [hlen, hval]
    show decodeB62 l.length ((b62val l * 62 + BASE62.indexOf c) / 62) ++
      [BASE62.getD ((b62val l * 62 + BASE62.indexOf c) % 62) 'a'] = l ++ [c]
    have hdiv : (b62val l * 62 + BASE62.indexOf c) / 62 = b62val l := by
      rw [Nat.mul_comm (b62val l) 62, Nat.mul_add_div (by norm_num)]
      simp [Nat.div_eq_of_lt hidx]
    have hmod : (b62val l * 62 + BASE62.indexOf c) % 62 = BASE62.indexOf c := by
      rw [Nat.mul_comm (b62val l) 62, Nat.mul_add_mod]
      exact Nat.mod_eq_of_lt hidx
    rw [hdiv, hmod, ih hl, base62_getD_indexOf c hc]

theorem b62val_inj (l1 l2 : List Char) (hlen : l1.length = l2.length)
    (h1 : ∀ c ∈ l1, c ∈ BASE62) (h2 : ∀ c ∈ l2, c ∈ BASE62)
    (hv : b62val l1 = b62val l2) : l1 = l2 := by
  have d1 := decodeB62_b62val l1 h1
  have d2 := decodeB62_b62val l2 h2
  rw [← d1, ← d2, hlen, hv]

theorem b62foldl_lt : ∀ (l : List Char) (acc : Nat), (∀ c ∈ l, c ∈ BASE62) →
    List.foldl b62step acc l < (acc + 1) * 62 ^ l.length := by
  intro l
  induction l with
  | nil =>
    intro acc _
    simpa using Nat.lt_succ_self acc
  | cons c t ih =>
    intro acc hmem
    have hc := base62_indexOf_lt c (hmem c (by simp))
    have ht : ∀ x ∈ t, x ∈ BASE62 := fun x hx => hmem x (by simp [hx])
    show List.foldl b62step (b62step acc c) t < _
    have h1 : b62step acc c + 1 ≤ (acc + 1) * 62 := by
      unfold b62step
      omega
    calc List.foldl b62step (b62step acc c) t
        < (b62step acc c + 1) * 62 ^ t.length := ih (b62step acc c) ht
      _ ≤ ((acc + 1) * 62) * 62 ^ t.length := Nat.mul_le_mul_right _ h1
      _ = (acc + 1) * 62 ^ (c :: t).length := by
          rw [List.length_cons, pow_succ]
          ring

theorem b62foldl_ge : ∀ (l : List Char) (acc : Nat),
    acc * 62 ^ l.length ≤ List.foldl b62step acc l := by
  intro l
  induction l with
  | nil => intro acc; simp
  | cons c t ih =>
    intro acc
    show _ ≤ List.foldl b62step (b62step acc c) t
    calc acc * 62 ^ (c :: t).length = (acc * 62) * 62 ^ t.length := by
          rw [List.length_cons, pow_succ]
          ring
      _ ≤ b62step acc c * 62 ^ t.length := by
          refine Nat.mul_le_mul_right _ ?_
          unfold b62step
          omega
      _ ≤ List.foldl b62step (b62step acc c) t := ih (b62step acc c)

theorem goodCode_b62val_mem (s : String) (h : goodCode s) :
    b62val s.data ∈ Finset.Ico (62 ^ 7) (62 ^ 8) := by
  obtain ⟨hlen, hmem, hhead⟩ := h
  obtain ⟨c, rest, hcr⟩ : ∃ c rest, s.data = c :: rest := by
    cases hd : s.data with
    | nil => rw [hd] at hlen; simp at hlen
    | cons c rest => exact ⟨c, rest, rfl⟩
  have hrest7 : rest.length = 7 := by
    rw [hcr] at hlen
    simpa using hlen
  have hc : c ∈ BASE62 := hmem c (by rw [hcr]; simp)
  have hcne : c ≠ 'a' := by
    intro hca
    rw [hcr, hca] at hhead
    exact hhead rfl
  have hidx1 : 1 ≤ BASE62.indexOf c := base62_indexOf_pos c hc hcne
  rw [Finset.mem_Ico]
  constructor
  · rw [hcr]
    show 62 ^ 7 ≤ List.foldl b62step (b62step 0 c) rest
    have hge := b62foldl_ge rest (b62step 0 c)
    have h2 : 62 ^ 7 ≤ b62step 0 c * 62 ^ rest.length := by
      rw [hrest7]
      have hstep : 1 ≤ b62step 0 c := by
        unfold b62step
        omega
      calc (62 : Nat) ^ 7 = 1 * 62 ^ 7 := by ring
        _ ≤ b62step 0 c * 62 ^ 7 := Nat.mul_le_mul_right _ hstep
    omega
  · have hlt := b62foldl_lt s.data 0 hmem
    rw [hlen] at hlt
    simpa using hlt

theorem goodCode_list_length_le (seen : List String) (hnd : seen.Nodup)
    (hgood : ∀ c ∈ seen, goodCode c) : seen.length ≤ 61 * 62 ^ 7 := by
  have hvnd : (seen.map (fun s => b62val s.data)).Nodup := by
    refine List.Nodup.map_on ?_ hnd
    intro x hx y hy hxy
    have gx := hgood x hx
    have gy := hgood y hy
    exact String.ext (b62val_inj _ _ (by rw [gx.1, gy.1]) gx.2.1 gy.2.1 hxy)
  have hsub : (seen.map (fun s => b62val s.data)).toFinset ⊆
      Finset.Ico (62 ^ 7) (62 ^ 8) := by
    intro v hv
    obtain ⟨s, hs, rfl⟩ := List.mem_map.mp (List.mem_toFinset.mp hv)
    exact goodCode_b62val_mem s (hgood s hs)
  have hcard := List.toFinset_card_of_nodup hvnd
  have hle := Finset.card_le_card hsub
  rw [hcard, Nat.card_Ico] at hle
  have hpow : 62 ^ 8 - 62 ^ 7 = 61 * 62 ^ 7 := by norm_num
  rw [List.length_map] at hle
  omega

theorem encode_image_card :
    ((Finset.Ico (62 ^ 7) (62 ^ 8)).image (fun m => base62_encode m 8)).card =
      61 * 62 ^ 7 := by
  rw [Finset.card_image_of_injOn
    (fun a ha b hb h => base62_encode_injOn_Ico a ha b hb h), Nat.card_Ico]
  norm_num

theorem counter_lt_of_seen_short (seen : List String) (counter : Nat)
    (hiff : ∀ c, c ∈ seen ↔ ∃ i, i < counter ∧ base62_encode i 8 = c)
    (hlt : seen.length < 61 * 62 ^ 7) : counter < 62 ^ 8 := by
  by_contra hcnt
  push_neg at hcnt
  have hsub : (Finset.Ico (62 ^ 7) (62 ^ 8)).image (fun m => base62_encode m 8) ⊆
      seen.toFinset := by
    intro c hc
    obtain ⟨m, hm, rfl⟩ := Finset.mem_image.mp hc
    rw [Finset.mem_Ico] at hm
    exact List.mem_toFinset.mpr ((hiff _).mpr ⟨m, by omega, rfl⟩)
  have h1 := Finset.card_le_card hsub
  rw [encode_image_card] at h1
  have h2 := List.toFinset_card_le seen
  omega

theorem genInitialLoop_zero (n : Nat) (entries : List (String × String))
    (seen : List String) (counter s : Nat) :
    genInitialLoop n 0 entries seen counter s =
      if n ≤ entries.length then some (entries, s) else none := rfl

theorem genInitialLoop_succ (n fuel : Nat) (entries : List (String × String))
    (seen : List String) (counter s : Nat) :
    genInitialLoop n (fuel + 1) entries seen counter s =
      genInitialStep n (genInitialLoop n fuel) entries seen counter s := rfl

theorem genInitialLoop_exit (n fuel : Nat) (entries : List (String × String))
    (seen : List String) (counter s : Nat) (hexit : n ≤ entries.length) :
    genInitialLoop n fuel entries seen counter s = some (entries, s) := by
  cases fuel with
  | zero => rw [genInitialLoop_zero, if_pos hexit]
  | succ f =>
    rw [genInitialLoop_succ]
    unfold genInitialStep
    rw [if_pos hexit]

theorem genInitialLoop_total (n : Nat) (hn : n ≤ 61 * 62 ^ 7) :
    ∀ (fuel : Nat) (entries : List (String × String)) (seen : List String)
      (counter s : Nat),
    entries.length ≤ n →
    entries.map Prod.fst = seen →
    seen.Nodup →
    (∀ c, c ∈ seen ↔ ∃ i, i < counter ∧ base62_encode i 8 = c) →
    62 ^ 8 ≤ counter + fuel →
    ∃ (res : List (String × String)) (s' : Nat),
      genInitialLoop n fuel entries seen counter s = some (res, s') ∧
      res.length = n ∧ (res.map Prod.fst).Nodup ∧
      ∀ e ∈ res, goodCode e.1 := by
  intro fuel
  induction fuel with
  | zero =>
    intro entries seen counter s h2 h3 h4 hiff h6
    by_cases hexit : n ≤ entries.length
    · refine ⟨entries, s, genInitialLoop_exit _ _ _ _ _ _ hexit, by omega,
        by rw [h3]; exact h4, ?_⟩
      intro e he
      have hm : e.1 ∈ seen := h3 ▸ List.mem_map_of_mem Prod.fst he
      obtain ⟨i, _, hei⟩ := (hiff e.1).mp hm
      rw [← hei]
      exact base62_encode_goodCode i
    · have hseenlen : seen.length = entries.length := by
        rw [← h3, List.length_map]
      have hcnt : counter < 62 ^ 8 :=
        counter_lt_of_seen_short seen counter hiff (by omega)
      omega
  | succ fuel ih =>
    intro entries seen counter s h2 h3 h4 hiff h6
    by_cases hexit : n ≤ entries.length
    · refine ⟨entries, s, genInitialLoop_exit _ _ _ _ _ _ hexit, by omega,
        by rw [h3]; exact h4, ?_⟩
      intro e he
      have hm : e.1 ∈ seen := h3 ▸ List.mem_map_of_mem Prod.fst he
      obtain ⟨i, _, hei⟩ := (hiff e.1).mp hm
      rw [← hei]
      exact base62_encode_goodCode i
    · have hstep : genInitialLoop n (fuel + 1) entries seen counter s =
          (if seen.contains (base62_encode counter 8) then
            genInitialLoop n fuel entries seen (counter + 1) s
          else
            match generate_url s with
            | .error _ => none
            | .ok (url, s') =>
              genInitialLoop n fuel (entries ++ [(base62_encode counter 8, url)])
                (seen ++ [base62_encode counter 8]) (counter + 1) s') := by
        rw [genInitialLoop_succ]
        unfold genInitialStep
        rw [if_neg hexit]
      by_cases hc : seen.contains (base62_encode counter 8)
      · have hmem : base62_encode counter 8 ∈ seen := List.elem_iff.mp hc
        have hiff' : ∀ c, c ∈ seen ↔
            ∃ i, i < counter + 1 ∧ base62_encode i 8 = c := by
          intro c
          constructor
          · intro hcm
            obtain ⟨i, hi, he⟩ := (hiff c).mp hcm
            exact ⟨i, by omega, he⟩
          · rintro ⟨i, hi, rfl⟩
            by_cases hieq : i = counter
            · subst hieq
              exact hmem
            · exact (hiff _).mpr ⟨i, by omega, rfl⟩
        obtain ⟨res, s', hres, hp⟩ :=
          ih entries seen (counter + 1) s h2 h3 h4 hiff' (by omega)
        refine ⟨res, s', ?_, hp⟩
        rw [hstep, if_pos hc]
        exact hres
      · obtain ⟨url, s2, hurl, _⟩ := generate_url_ok s
        have hnotmem : base62_encode counter 8 ∉ seen := by
          intro hm
          exact hc (List.elem_iff.mpr hm)
        have h3' : (entries ++ [(base62_encode counter 8, url)]).map Prod.fst =
            seen ++ [base62_encode counter 8] := by
          rw [List.map_append, h3]
          rfl
        have h4' : (seen ++ [base62_encode counter 8]).Nodup := by
          rw [List.nodup_append]
          refine ⟨h4, List.nodup_singleton _, ?_⟩
          intro a ha hb
          rw [List.mem_singleton] at hb
          subst hb
          exact hnotmem ha
        have hiff' : ∀ c, c ∈ seen ++ [base62_encode counter 8] ↔
            ∃ i, i < counter + 1 ∧ base62_encode i 8 = c := by
          intro c
          rw [List.mem_append, List.mem_singleton]
          constructor
          · intro hcm
            rcases hcm with hcm | hcm
            · obtain ⟨i, hi, he⟩ := (hiff c).mp hcm
              exact ⟨i, by omega, he⟩
            · exact ⟨counter, by omega, hcm.symm⟩
          · rintro ⟨i, hi, rfl⟩
            by_cases hieq : i = counter
            · subst hieq
              exact Or.inr rfl
            · exact Or.inl ((hiff _).mpr ⟨i, by omega, rfl⟩)
        have h2' : (entries ++ [(base62_encode counter 8, url)]).length ≤ n := by
          rw [List.length_append]
          simp only [List.length_singleton]
          omega
        obtain ⟨res, s', hres, hp⟩ :=
          ih (entries ++ [(base62_encode counter 8, url)])
            (seen ++ [base62_encode counter 8]) (counter + 1) s2 h2' h3' h4'
            hiff' (by omega)
        refine ⟨res, s', ?_, hp⟩
        rw [hstep, if_neg hc, hurl]
        exact hres

theorem genInitialLoop_step (n fuel : Nat) (entries : List (String × String))
    (seen : List String) (counter s : Nat) (hlt : ¬n ≤ entries.length) :
    genInitialLoop n (fuel + 1) entries seen counter s =
      if seen.contains (base62_encode counter 8) then
        genInitialLoop n fuel entries seen (counter + 1) s
      else
        match generate_url s with
        | .error _ => none
        | .ok (url, s') =>
          genInitialLoop n fuel (entries ++ [(base62_encode counter 8, url)])
            (seen ++ [base62_encode counter 8]) (counter + 1) s' := by
  rw [genInitialLoop_succ]
  unfold genInitialStep
  rw [if_neg hlt]

theorem genInitialLoop_none (n : Nat) (hn : 61 * 62 ^ 7 < n) :
    ∀ (fuel : Nat) (entries : List (String × String)) (seen : List String)
      (counter s : Nat),
    entries.map Prod.fst = seen →
    seen.Nodup →
    (∀ c ∈ seen, goodCode c) →
    genInitialLoop n fuel entries seen counter s = none := by
  intro fuel
  induction fuel with
  | zero =>
    intro entries seen counter s h3 h4 hgood
    have hbound := goodCode_list_length_le seen h4 hgood
    have hlen : seen.length = entries.length := by
      rw [← h3, List.length_map]
    rw [genInitialLoop_zero, if_neg (by omega)]
  | succ fuel ih =>
    intro entries seen counter s h3 h4 hgood
    have hbound := goodCode_list_length_le seen h4 hgood
    have hlen : seen.length = entries.length := by
      rw [← h3, List.length_map]
    rw [genInitialLoop_step n fuel entries seen counter s (by omega)]
    by_cases hc : seen.contains (base62_encode counter 8)
    · rw [if_pos hc]
      exact ih entries seen (counter + 1) s h3 h4 hgood
    · rw [if_neg hc]
      obtain ⟨url, s2, hurl, _⟩ := generate_url_ok s
      rw [hurl]
      have hnotmem : base62_encode counter 8 ∉ seen := by
        intro hm
        exact hc (List.elem_iff.mpr hm)
      have h3' : (entries ++ [(base62_encode counter 8, url)]).map Prod.fst =
          seen ++ [base62_encode counter 8] := by
        rw [List.map_append, h3]
        rfl
      have h4' : (seen ++ [base62_encode counter 8]).Nodup := by
        rw [List.nodup_append]
        refine ⟨h4, List.nodup_singleton _, ?_⟩
        intro a ha hb
        rw [List.mem_singleton] at hb
        subst hb
        exact hnotmem ha
      have hgood' : ∀ c ∈ seen ++ [base62_encode counter 8], goodCode c := by
        intro c hcm
        rcases List.mem_append.mp hcm with h' | h'
        · exact hgood c h'
        · rw [List.mem_singleton] at h'
          subst h'
          exact base62_encode_goodCode counter
      exact ih _ _ (counter + 1) s2 h3' h4' hgood'

/-- C5 (amended): for every `n` up to `61 * 62 ^ 7` — the number of
distinct strings `base62_encode` can produce — and every seed, the generator
terminates with exactly `n` entries whose codes are pairwise distinct,
each exactly 8 characters over the 62-symbol alphabet; `n = 0` yields the
empty dataset.  (Beyond that bound the Python loop runs forever, see the
counterexample.) -/
theorem c5_initial_dataset_total_below_capacity (n seed : Nat)
    (hn : n ≤ 61 * 62 ^ 7) :
    ∃ entries : List (String × String),
      generate_initial_dataset n seed = some entries ∧
      entries.length = n ∧ (entries.map Prod.fst).Nodup ∧
      (∀ e ∈ entries, e.1.length = 8 ∧ ∀ c ∈ e.1.data, c ∈ BASE62) ∧
      (n = 0 → entries = []) := by
  have hiff0 : ∀ c, c ∈ ([] : List String) ↔
      ∃ i, i < 0 ∧ base62_encode i 8 = c := by
    intro c
    constructor
    · intro h
      exact absurd h (List.not_mem_nil c)
    · rintro ⟨i, hi, _⟩
      omega
  obtain ⟨res, s', hres, hlen, hnd, hgood⟩ :=
    genInitialLoop_total n hn (62 ^ 8) [] [] 0 (seedState seed)
      (by simp) rfl List.nodup_nil hiff0 (by omega)
  refine ⟨res, ?_, hlen, hnd, ?_, ?_⟩
  · unfold generate_initial_dataset
    rw [hres]
    rfl
  · intro e he
    obtain ⟨hl, hm, _⟩ := hgood e he
    exact ⟨hl, hm⟩
  · intro h0
    subst h0
    exact List.length_eq_zero.mp hlen

theorem c5_initial_dataset_witness :
    2 ≤ 61 * 62 ^ 7 ∧
    ∃ entries : List (String × String),
      generate_initial_dataset 2 12345 = some entries ∧
      entries.length = 2 ∧ (entries.map Prod.fst).Nodup ∧
      (∀ e ∈ entries, e.1.length = 8 ∧ ∀ c ∈ e.1.data, c ∈ BASE62) ∧
      (2 = 0 → entries = []) :=
  ⟨by norm_num, c5_initial_dataset_total_below_capacity 2 12345 (by norm_num)⟩

/-- C5 (counterexample): at `n = 61 * 62 ^ 7 + 1` the loop can never
collect `n` distinct codes — `base62_encode` reaches at most `61 * 62 ^ 7`
distinct 8-character strings (none starts with `'a'`) — so no amount of fuel
makes it terminate: the Python `while` loop diverges and the claim's
"total for any n ≥ 0" is false. -/
theorem c5_divergence_beyond_capacity :
    (∀ fuel : Nat,
      genInitialLoop (61 * 62 ^ 7 + 1) fuel [] [] 0 (seedState 12345) = none) ∧
    generate_initial_dataset (61 * 62 ^ 7 + 1) 12345 = none := by
  have hall : ∀ fuel : Nat,
      genInitialLoop (61 * 62 ^ 7 + 1) fuel [] [] 0 (seedState 12345) = none :=
    fun fuel =>
      genInitialLoop_none (61 * 62 ^ 7 + 1) (by omega) fuel [] [] 0
        (seedState 12345) rfl List.nodup_nil
        (fun c h => absurd h (List.not_mem_nil c))
  refine ⟨hall, ?_⟩
  unfold generate_initial_dataset
  rw [hall (62 ^ 8)]
  rfl

theorem genInitialLoop_wf_inv (n : Nat) : ∀ (fuel : Nat)
    (entries : List (String × String)) (seen : List String) (counter s : Nat)
    (res : List (String × String)) (s' : Nat),
    (∀ e ∈ entries, goodCode e.1 ∧ ∀ ch ∈ e.2.data, ch ∈ URL_CHARS) →
    genInitialLoop n fuel entries seen counter s = some (res, s') →
    ∀ e ∈ res, goodCode e.1 ∧ ∀ ch ∈ e.2.data, ch ∈ URL_CHARS := by
  intro fuel
  induction fuel with
  | zero =>
    intro entries seen counter s res s' hwf heq
    rw [genInitialLoop_zero] at heq
    by_cases hexit : n ≤ entries.length
    · rw [if_pos hexit] at heq
      obtain ⟨h1, _⟩ := Prod.mk.injEq .. ▸ Option.some.inj heq
      exact h1 ▸ hwf
    · rw [if_neg hexit] at heq
      exact absurd heq (Option.some_ne_none _).symm
  | succ fuel ih =>
    intro entries seen counter s res s' hwf heq
    by_cases hexit : n ≤ entries.length
    · rw [genInitialLoop_exit n (fuel + 1) entries seen counter s hexit] at heq
      obtain ⟨h1, _⟩ := Prod.mk.injEq .. ▸ Option.some.inj heq
      exact h1 ▸ hwf
    · rw [genInitialLoop_step n fuel entries seen counter s hexit] at heq
      by_cases hc : seen.contains (base62_encode counter 8)
      · rw [if_pos hc] at heq
        exact ih entries seen (counter + 1) s res s' hwf heq
      · rw [if_neg hc] at heq
        obtain ⟨url, s2, hurl, hurlwf⟩ := generate_url_ok s
        rw [hurl] at heq
        refine ih (entries ++ [(base62_encode counter 8, url)])
          (seen ++ [base62_encode counter 8]) (counter + 1) s2 res s' ?_ heq
        intro e he
        rcases List.mem_append.mp he with h' | h'
        · exact hwf e h'
        · rw [List.mem_singleton] at h'
          subst h'
          exact ⟨base62_encode_goodCode counter, hurlwf⟩

theorem generate_initial_dataset_wf (n seed : Nat)
    (entries : List (String × String))
    (h : generate_initial_dataset n seed = some entries) :
    ∀ e ∈ entries, goodCode e.1 ∧ ∀ ch ∈ e.2.data, ch ∈ URL_CHARS := by
  unfold generate_initial_dataset at h
  cases hloop : genInitialLoop n (62 ^ 8) [] [] 0 (seedState seed) with
  | none =>
    rw [hloop] at h
    exact absurd h (Option.some_ne_none _).symm
  | some p =>
    rw [hloop] at h
    have hent : entries = p.1 := (Option.some.inj h).symm
    subst hent
    exact genInitialLoop_wf_inv n (62 ^ 8) [] [] 0 (seedState seed) p.1 p.2
      (fun e he => absurd he (List.not_mem_nil e))
      (by rw [← hloop])

theorem RandM.bind_inv {α β : Type} {m : RandM α} {f : α → RandM β} {s : Nat}
    {r : β × Nat} (h : RandM.bind m f s = .ok r) :
    ∃ a s1, m s = .ok (a, s1) ∧ f a s1 = .ok r := by
  unfold RandM.bind at h
  cases hm : m s with
  | error e =>
    rw [hm] at h
    exact absurd h (by simp)
  | ok p =>
    obtain ⟨a, s1⟩ := p
    rw [hm] at h
    exact ⟨a, s1, rfl, h⟩

theorem choice_inv {α : Type} {xs : List α} {s s' : Nat} {a : α}
    (h : choice xs s = .ok (a, s')) : a ∈ xs := by
  cases xs with
  | nil => exact absurd h (by simp [choice])
  | cons x rest =>
    unfold choice at h
    injection h with h1
    rw [Prod.mk.injEq] at h1
    obtain ⟨ha, -⟩ := h1
    rw [← ha, List.getD_eq_get _ _ (Nat.mod_lt _ (by simp))]
    exact List.get_mem _ _ _

theorem drawChars_inv : ∀ (k : Nat) {s s' : Nat} {cs : List Char},
    drawChars k s = .ok (cs, s') → ∀ c ∈ cs, c ∈ URL_CHARS := by
  intro k
  induction k with
  | zero =>
    intro s s' cs h c hc
    simp only [drawChars] at h
    unfold RandM.pure at h
    injection h with h1
    rw [Prod.mk.injEq] at h1
    obtain ⟨hcs, -⟩ := h1
    subst hcs
    exact absurd hc (List.not_mem_nil c)
  | succ k ih =>
    intro s s' cs h c hc
    simp only [drawChars] at h
    obtain ⟨c0, s1, hc0, h2⟩ := RandM.bind_inv h
    obtain ⟨cs1, s2, hcs1, h3⟩ := RandM.bind_inv h2
    unfold RandM.pure at h3
    injection h3 with h1
    rw [Prod.mk.injEq] at h1
    obtain ⟨hcs, -⟩ := h1
    subst hcs
    rcases List.mem_cons.mp hc with h' | h'
    · exact h' ▸ choice_inv hc0
    · exact ih hcs1 c h'

theorem generate_url_inv {s s' : Nat} {u : String}
    (h : generate_url s = .ok (u, s')) : ∀ c ∈ u.data, c ∈ URL_CHARS := by
  unfold generate_url at h
  obtain ⟨len, s1, _, h2⟩ := RandM.bind_inv h
  obtain ⟨cs, s2, hcs, h3⟩ := RandM.bind_inv h2
  unfold RandM.pure at h3
  injection h3 with h1
  rw [Prod.mk.injEq] at h1
  obtain ⟨hu, -⟩ := h1
  subst hu
  exact drawChars_inv _ hcs

theorem drawReads_inv (codes : List String) : ∀ (k : Nat) {s s' : Nat}
    {ops : List Op}, drawReads codes k s = .ok (ops, s') →
    ∀ op ∈ ops, ∃ c ∈ codes, op = .read c := by
  intro k
  induction k with
  | zero =>
    intro s s' ops h op hop
    simp only [drawReads] at h
    unfold RandM.pure at h
    injection h with h1
    rw [Prod.mk.injEq] at h1
    obtain ⟨hops, -⟩ := h1
    subst hops
    exact absurd hop (List.not_mem_nil op)
  | succ k ih =>
    intro s s' ops h op hop
    simp only [drawReads] at h
    obtain ⟨c0, s1, hc0, h2⟩ := RandM.bind_inv h
    obtain ⟨ops1, s2, hops1, h3⟩ := RandM.bind_inv h2
    unfold RandM.pure at h3
    injection h3 with h1
    rw [Prod.mk.injEq] at h1
    obtain ⟨hops, -⟩ := h1
    subst hops
    rcases List.mem_cons.mp hop with h' | h'
    · exact ⟨c0, choice_inv hc0, h'⟩
    · exact ih hops1 op h'

theorem drawWrites_inv : ∀ (k : Nat) (m : Nat) {s s' : Nat} {ops : List Op},
    drawWrites m k s = .ok (ops, s') →
    ∀ op ∈ ops, (∃ i, op = .write (base62_encode i 8) op.url) ∧
      ∀ ch ∈ op.url.data, ch ∈ URL_CHARS := by
  intro k
  induction k with
  | zero =>
    intro m s s' ops h op hop
    simp only [drawWrites] at h
    unfold RandM.pure at h
    injection h with h1
    rw [Prod.mk.injEq] at h1
    obtain ⟨hops, -⟩ := h1
    subst hops
    exact absurd hop (List.not_mem_nil op)
  | succ k ih =>
    intro m s s' ops h op hop
    simp only [drawWrites] at h
    obtain ⟨url, s1, hurl, h2⟩ := RandM.bind_inv h
    obtain ⟨ops1, s2, hops1, h3⟩ := RandM.bind_inv h2
    unfold RandM.pure at h3
    injection h3 with h1
    rw [Prod.mk.injEq] at h1
    obtain ⟨hops, -⟩ := h1
    subst hops
    rcases List.mem_cons.mp hop with h' | h'
    · subst h'
      exact ⟨⟨m, rfl⟩, generate_url_inv hurl⟩
    · exact ih (m + 1) hops1 op h'

theorem shuffle_inv {α : Type} {xs out : List α} {s s' : Nat}
    (h : shuffle xs s = .ok (out, s')) : out.Perm xs := by
  obtain ⟨o, t, heq, hperm⟩ := shuffle_ok xs s
  rw [heq] at h
  have ho : o = out := by
    injection h with h1
    rw [Prod.mk.injEq] at h1
    exact h1.1
  exact ho ▸ hperm

theorem except_map_fst_inv {ops : List Op} {e : Except String (List Op × Nat)}
    (h : e.map Prod.fst = .ok ops) : ∃ s', e = .ok (ops, s') := by
  cases e with
  | error e' => simp [Except.map] at h
  | ok p =>
    simp only [Except.map] at h
    injection h with h1
    exact ⟨p.2, by rw [← h1]⟩

theorem read_url_wf (c : String) : ∀ ch ∈ (Op.read c).url.data, ch ∈ URL_CHARS := by
  intro ch hch
  exact absurd hch (List.not_mem_nil ch)

theorem gen_ops_wf (dist : DistMode) (n_ops : Nat) (codes : List String)
    (pct : Int) (seed : Nat) (ops : List Op)
    (hcodes : ∀ c ∈ codes, ∀ ch ∈ c.data, ch ∈ BASE62)
    (h : gen_ops dist n_ops codes pct seed = .ok ops) :
    ∀ op ∈ ops, (∀ ch ∈ op.code.data, ch ∈ BASE62) ∧
      (∀ ch ∈ op.url.data, ch ∈ URL_CHARS) := by
  cases dist with
  | uniform =>
    simp only [gen_ops, generate_ops_uniform] at h
    obtain ⟨sf, hrun⟩ := except_map_fst_inv h
    obtain ⟨reads, s1, hreads, h2⟩ := RandM.bind_inv hrun
    obtain ⟨writes, s2, hwrites, h3⟩ := RandM.bind_inv h2
    have hperm := shuffle_inv h3
    intro op hop
    have hm : op ∈ reads ++ writes := hperm.mem_iff.mp hop
    rcases List.mem_append.mp hm with h' | h'
    · obtain ⟨c, hcmem, rfl⟩ := drawReads_inv codes _ hreads op h'
      exact ⟨hcodes c hcmem, read_url_wf c⟩
    · obtain ⟨⟨i, hop_eq⟩, hurl⟩ := drawWrites_inv _ _ hwrites op h'
      refine ⟨?_, hurl⟩
      rw [hop_eq]
      exact (base62_encode_goodCode i).2.1
  | hot =>
    simp only [gen_ops, generate_ops_hot] at h
    obtain ⟨sf, hrun⟩ := except_map_fst_inv h
    obtain ⟨hreads, s1, hhr, h2⟩ := RandM.bind_inv hrun
    obtain ⟨creads, s2, hcr, h3⟩ := RandM.bind_inv h2
    obtain ⟨writes, s3, hwr, h4⟩ := RandM.bind_inv h3
    have hperm := shuffle_inv h4
    have hhotsub : ∀ c ∈ codes.take (hot_size_of codes), c ∈ codes :=
      fun c hc => List.take_subset _ _ hc
    have hcoldsub : ∀ c ∈ (if (codes.drop (hot_size_of codes)).isEmpty then
        codes else codes.drop (hot_size_of codes)), c ∈ codes := by
      intro c hc
      by_cases hemp : (codes.drop (hot_size_of codes)).isEmpty
      · rw [if_pos hemp] at hc
        exact hc
      · rw [if_neg hemp] at hc
        exact List.drop_subset _ _ hc
    intro op hop
    have hm : op ∈ hreads ++ creads ++ writes := hperm.mem_iff.mp hop
    rcases List.mem_append.mp hm with h' | h'
    · rcases List.mem_append.mp h' with h'' | h''
      · obtain ⟨c, hcmem, rfl⟩ := drawReads_inv _ _ hhr op h''
        exact ⟨hcodes c (hhotsub c hcmem), read_url_wf c⟩
      · obtain ⟨c, hcmem, rfl⟩ := drawReads_inv _ _ hcr op h''
        exact ⟨hcodes c (hcoldsub c hcmem), read_url_wf c⟩
    · obtain ⟨⟨i, hop_eq⟩, hurl⟩ := drawWrites_inv _ _ hwr op h'
      refine ⟨?_, hurl⟩
      rw [hop_eq]
      exact (base62_encode_goodCode i).2.1

theorem tab_not_mem_base62 : ('\t' : Char) ∉ BASE62 := by decide

theorem nl_not_mem_base62 : ('\n' : Char) ∉ BASE62 := by decide

theorem space_not_mem_base62 : (' ' : Char) ∉ BASE62 := by decide

theorem tab_not_mem_url_chars : ('\t' : Char) ∉ URL_CHARS := by decide

theorem nl_not_mem_url_chars : ('\n' : Char) ∉ URL_CHARS := by decide

theorem space_not_mem_url_chars : (' ' : Char) ∉ URL_CHARS := by decide

theorem splitOnChar_ne_nil (sep : Char) : ∀ (l : List Char),
    splitOnChar sep l ≠ [] := by
  intro l
  induction l with
  | nil => simp [splitOnChar]
  | cons c rest ih =>
    show (if c = sep then [] :: splitOnChar sep rest
      else match splitOnChar sep rest with
        | [] => [[c]]
        | h :: t => (c :: h) :: t) ≠ []
    by_cases h : c = sep
    · rw [if_pos h]
      simp
    · rw [if_neg h]
      cases hs : splitOnChar sep rest <;> simp

theorem splitOnChar_not_mem (sep : Char) : ∀ (l : List Char), sep ∉ l →
    splitOnChar sep l = [l] := by
  intro l
  induction l with
  | nil => intro _; rfl
  | cons c rest ih =>
    intro h
    have hc : c ≠ sep := fun he => h (he ▸ List.mem_cons_self c rest)
    have hrest : sep ∉ rest := fun hm => h (List.mem_cons_of_mem c hm)
    show (if c = sep then [] :: splitOnChar sep rest
      else match splitOnChar sep rest with
        | [] => [[c]]
        | h :: t => (c :: h) :: t) = [c :: rest]
    rw [if_neg hc, ih hrest]

theorem splitOnChar_append (sep : Char) : ∀ (l1 l2 : List Char), sep ∉ l1 →
    splitOnChar sep (l1 ++ sep :: l2) = l1 :: splitOnChar sep l2 := by
  intro l1
  induction l1 with
  | nil =>
    intro l2 _
    show (if sep = sep then [] :: splitOnChar sep l2
      else match splitOnChar sep l2 with
        | [] => [[sep]]
        | h :: t => (sep :: h) :: t) = [] :: splitOnChar sep l2
    rw [if_pos rfl]
  | cons c rest ih =>
    intro l2 h
    have hc : c ≠ sep := fun he => h (he ▸ List.mem_cons_self c rest)
    have hrest : sep ∉ rest := fun hm => h (List.mem_cons_of_mem c hm)
    show (if c = sep then [] :: splitOnChar sep (rest ++ sep :: l2)
      else match splitOnChar sep (rest ++ sep :: l2) with
        | [] => [[c]]
        | h :: t => (c :: h) :: t) = (c :: rest) :: splitOnChar sep l2
    rw [if_neg hc, ih l2 hrest]

theorem mk_data_eq (s : String) : String.mk s.data = s := by
  cases s
  rfl

theorem parseEntryLine_render (code url : String)
    (hc : ('\t' : Char) ∉ code.data) (hu : ('\t' : Char) ∉ url.data) :
    parseEntryLine (code.data ++ '\t' :: url.data) = some (code, url) := by
  unfold parseEntryLine
  rw [splitOnChar_append '\t' code.data url.data hc,
    splitOnChar_not_mem '\t' url.data hu]

theorem parseOpLine_render_read (code : String)
    (hc : (' ' : Char) ∉ code.data) :
    parseOpLine ('G' :: ' ' :: code.data) = some (.read code) := by
  unfold parseOpLine
  have hsplit : splitOnChar ' ' ('G' :: ' ' :: code.data) =
      [['G'], code.data] := by
    rw [show ('G' :: ' ' :: code.data) = ['G'] ++ ' ' :: code.data from rfl,
      splitOnChar_append ' ' ['G'] code.data (by decide),
      splitOnChar_not_mem ' ' code.data hc]
  rw [hsplit]
  show (if (['G'] : List Char) = ['G'] then some (Op.read (String.mk code.data))
    else none) = some (Op.read code)
  rw [if_pos rfl, mk_data_eq]

theorem parseOpLine_render_write (code url : String)
    (hc : (' ' : Char) ∉ code.data) (hu : (' ' : Char) ∉ url.data) :
    parseOpLine ('S' :: ' ' :: (code.data ++ ' ' :: url.data)) =
      some (.write code url) := by
  unfold parseOpLine
  have hsplit : splitOnChar ' ' ('S' :: ' ' :: (code.data ++ ' ' :: url.data)) =
      [['S'], code.data, url.data] := by
    rw [show ('S' :: ' ' :: (code.data ++ ' ' :: url.data)) =
        ['S'] ++ ' ' :: (code.data ++ ' ' :: url.data) from rfl,
      splitOnChar_append ' ' ['S'] _ (by decide),
      splitOnChar_append ' ' code.data url.data hc,
      splitOnChar_not_mem ' ' url.data hu]
  rw [hsplit]
  show (if (['S'] : List Char) = ['S'] then
      some (Op.write (String.mk code.data) (String.mk url.data))
    else none) = some (Op.write code url)
  rw [if_pos rfl, mk_data_eq, mk_data_eq]

theorem parseLinesGo_step {α : Type} (p : List Char → Option α) :
    ∀ (line rest acc : List Char), ('\n' : Char) ∉ line →
    parseLinesGo p (line ++ '\n' :: rest) acc =
      (match p (acc.reverse ++ line), parseLinesGo p rest [] with
       | some x, some xs => some (x :: xs)
       | _, _ => none) := by
  intro line
  induction line with
  | nil =>
    intro rest acc _
    show (if ('\n' : Char) = '\n' then
        match p acc.reverse, parseLinesGo p rest [] with
        | some x, some xs => some (x :: xs)
        | _, _ => none
      else parseLinesGo p rest ('\n' :: acc)) = _
    rw [if_pos rfl, List.append_nil]
  | cons c line' ih =>
    intro rest acc h
    have hc : c ≠ '\n' := fun he => h (he ▸ List.mem_cons_self _ _)
    have hrest : ('\n' : Char) ∉ line' := fun hm => h (List.mem_cons_of_mem _ hm)
    show (if c = '\n' then
        match p acc.reverse, parseLinesGo p (line' ++ '\n' :: rest) [] with
        | some x, some xs => some (x :: xs)
        | _, _ => none
      else parseLinesGo p (line' ++ '\n' :: rest) (c :: acc)) = _
    rw [if_neg hc, ih rest (c :: acc) hrest]
    have hacc : (c :: acc).reverse ++ line' = acc.reverse ++ c :: line' := by
      rw [List.reverse_cons, List.append_assoc]
      rfl
    rw [hacc]

theorem parseLinesInitial_round : ∀ (entries : List (String × String)),
    (∀ e ∈ entries, (∀ c ∈ e.1.data, c ∈ BASE62) ∧
      ∀ c ∈ e.2.data, c ∈ URL_CHARS) →
    parseLinesGo parseEntryLine (renderInitial entries) [] = some entries := by
  intro entries
  induction entries with
  | nil => intro _; rfl
  | cons e es ih =>
    intro hwf
    have hewf := hwf e (List.mem_cons_self _ _)
    have heswf : ∀ x ∈ es, (∀ c ∈ x.1.data, c ∈ BASE62) ∧
        ∀ c ∈ x.2.data, c ∈ URL_CHARS :=
      fun x hx => hwf x (List.mem_cons_of_mem _ hx)
    have hcode_tab : ('\t' : Char) ∉ e.1.data :=
      fun hm => tab_not_mem_base62 (hewf.1 _ hm)
    have hurl_tab : ('\t' : Char) ∉ e.2.data :=
      fun hm => tab_not_mem_url_chars (hewf.2 _ hm)
    have hline_nl : ('\n' : Char) ∉ (e.1.data ++ '\t' :: e.2.data) := by
      intro hm
      rcases List.mem_append.mp hm with h | h
      · exact nl_not_mem_base62 (hewf.1 _ h)
      · rcases List.mem_cons.mp h with h | h
        · exact absurd h (by decide)
        · exact nl_not_mem_url_chars (hewf.2 _ h)
    have hshape : renderInitial (e :: es) =
        (e.1.data ++ '\t' :: e.2.data) ++ '\n' :: renderInitial es := by
      show renderEntryLine e ++ renderInitial es = _
      unfold renderEntryLine
      simp [List.append_assoc]
    rw [hshape, parseLinesGo_step parseEntryLine _ _ [] hline_nl]
    have hacc : (([] : List Char)).reverse ++ (e.1.data ++ '\t' :: e.2.data) =
        e.1.data ++ '\t' :: e.2.data := by
      simp
    rw [hacc, parseEntryLine_render e.1 e.2 hcode_tab hurl_tab, ih heswf]

theorem parseLinesOps_round : ∀ (ops : List Op),
    (∀ op ∈ ops, (∀ c ∈ op.code.data, c ∈ BASE62) ∧
      ∀ c ∈ op.url.data, c ∈ URL_CHARS) →
    parseLinesGo parseOpLine (renderOps ops) [] = some ops := by
  intro ops
  induction ops with
  | nil => intro _; rfl
  | cons op ops' ih =>
    intro hwf
    have hopwf := hwf op (List.mem_cons_self _ _)
    have hopswf : ∀ x ∈ ops', (∀ c ∈ x.code.data, c ∈ BASE62) ∧
        ∀ c ∈ x.url.data, c ∈ URL_CHARS :=
      fun x hx => hwf x (List.mem_cons_of_mem _ hx)
    cases op with
    | read c =>
      have hcsp : (' ' : Char) ∉ c.data :=
        fun hm => space_not_mem_base62 (hopwf.1 _ hm)
      have hline_nl : ('\n' : Char) ∉ ('G' :: ' ' :: c.data) := by
        intro hm
        rcases List.mem_cons.mp hm with h | h
        · exact absurd h (by decide)
        · rcases List.mem_cons.mp h with h | h
          · exact absurd h (by decide)
          · exact nl_not_mem_base62 (hopwf.1 _ h)
      have hshape : renderOps (Op.read c :: ops') =
          ('G' :: ' ' :: c.data) ++ '\n' :: renderOps ops' := by
        show renderOpLine (Op.read c) ++ renderOps ops' = _
        unfold renderOpLine
        simp [List.append_assoc]
      rw [hshape, parseLinesGo_step parseOpLine _ _ [] hline_nl]
      have hacc : (([] : List Char)).reverse ++ ('G' :: ' ' :: c.data) =
          'G' :: ' ' :: c.data := by
        simp
      rw [hacc, parseOpLine_render_read c hcsp, ih hopswf]
    | write c u =>
      have hcsp : (' ' : Char) ∉ c.data :=
        fun hm => space_not_mem_base62 (hopwf.1 _ hm)
      have husp : (' ' : Char) ∉ u.data :=
        fun hm => space_not_mem_url_chars (hopwf.2 _ hm)
      have hline_nl : ('\n' : Char) ∉ ('S' :: ' ' :: (c.data ++ ' ' :: u.data)) := by
        intro hm
        rcases List.mem_cons.mp hm with h | h
        · exact absurd h (by decide)
        · rcases List.mem_cons.mp h with h | h
          · exact absurd h (by decide)
          · rcases List.mem_append.mp h with h | h
            · exact nl_not_mem_base62 (hopwf.1 _ h)
            · rcases List.mem_cons.mp h with h | h
              · exact absurd h (by decide)
              · exact nl_not_mem_url_chars (hopwf.2 _ h)
      have hshape : renderOps (Op.write c u :: ops') =
          ('S' :: ' ' :: (c.data ++ ' ' :: u.data)) ++ '\n' :: renderOps ops' := by
        show renderOpLine (Op.write c u) ++ renderOps ops' = _
        unfold renderOpLine
        simp [List.append_assoc]
      rw [hshape, parseLinesGo_step parseOpLine _ _ [] hline_nl]
      have hacc : (([] : List Char)).reverse ++
          ('S' :: ' ' :: (c.data ++ ' ' :: u.data)) =
          'S' :: ' ' :: (c.data ++ ' ' :: u.data) := by
        simp
      rw [hacc, parseOpLine_render_write c u hcsp husp, ih hopswf]

/-- C8: serializing a generated initial entry list to the `initial.tsv`
line format and a generated operation sequence to the `ops.txt` line format
and parsing the texts back recovers exactly the original lists, in order.
The parsers are modelled from the spec's format description (the consuming
harness is external to the repository). -/
theorem c8_serialization_roundtrip (n seed n_ops : Nat) (pct : Int)
    (dist : DistMode) (seed2 : Nat) (entries : List (String × String))
    (ops : List Op)
    (hds : generate_initial_dataset n seed = some entries)
    (hops : gen_ops dist n_ops (entries.map Prod.fst) pct seed2 = .ok ops) :
    parseInitial (renderInitial entries) = some entries ∧
    parseOps (renderOps ops) = some ops := by
  have hwf := generate_initial_dataset_wf n seed entries hds
  have hcodes : ∀ c ∈ entries.map Prod.fst, ∀ ch ∈ c.data, ch ∈ BASE62 := by
    intro c hc
    obtain ⟨e, he, rfl⟩ := List.mem_map.mp hc
    exact ((hwf e he).1).2.1
  have hopswf := gen_ops_wf dist n_ops _ pct seed2 ops hcodes hops
  constructor
  · exact parseLinesInitial_round entries
      (fun e he => ⟨((hwf e he).1).2.1, (hwf e he).2⟩)
  · exact parseLinesOps_round ops hopswf

set_option maxRecDepth 40000 in
theorem c8_serialization_roundtrip_witness :
    ∃ (entries : List (String × String)) (ops : List Op),
      generate_initial_dataset 1 12345 = some entries ∧
      gen_ops .uniform 2 (entries.map Prod.fst) 50 12346 = .ok ops ∧
      parseInitial (renderInitial entries) = some entries ∧
      parseOps (renderOps ops) = some ops := by
  have h1 : generate_initial_dataset 1 12345 =
      some ((generate_initial_dataset 1 12345).getD []) := by rfl
  have h2 : gen_ops .uniform 2
      (((generate_initial_dataset 1 12345).getD []).map Prod.fst) 50 12346 =
      .ok (match gen_ops .uniform 2
          (((generate_initial_dataset 1 12345).getD []).map Prod.fst) 50
          12346 with
        | .ok o => o
        | .error _ => []) := by rfl
  have hmain := c8_serialization_roundtrip 1 12345 2 50 .uniform 12346 _ _ h1 h2
  exact ⟨_, _, h1, h2, hmain.1, hmain.2⟩
